import Mathlib

/-!
Verification of the pactools preprocessing core (dehumming, ARMA estimation,
ENF-aware whitening) against its specification.

The Python source is shallowly embedded: numpy float arrays become `List ℝ`,
machine floats become exact reals, `scipy.linalg.solve` becomes an
`Option`-valued exact solver that fails precisely on singular systems (scipy
raises `LinAlgError` there), and numpy operations that can raise
(broadcasting, slice assignment, `np.linspace` with a negative count) become
`Option`-valued functions returning `none` where numpy raises.
`np.sqrt` of a negative float yields NaN; NaN is modelled as `none` in
`Option ℝ`-valued cells.
-/

open Real

namespace Pactools

/-! ## Basic numpy-style helpers -/

/-- Dot product of two equal-length vectors, as in a 1-D `np.dot(x, y)`. -/
def npDot (x y : List ℝ) : ℝ := (List.zipWith (· * ·) x y).sum

/-- Elementwise difference of two equal-length arrays. -/
def listSub (x y : List ℝ) : List ℝ := List.zipWith (· - ·) x y

/-- Arithmetic mean, as in `np.mean` (empty input handled by 0/0 = 0). -/
noncomputable def npMean (xs : List ℝ) : ℝ := xs.sum / xs.length

/-- Population standard deviation, as in `np.std`. -/
noncomputable def npStd (xs : List ℝ) : ℝ :=
  Real.sqrt (npMean (xs.map fun x => (x - npMean xs) ^ 2))

/-- Python's `int()` applied to a float: truncation toward zero. -/
noncomputable def pyInt (x : ℝ) : ℤ := if x < 0 then -⌊-x⌋ else ⌊x⌋

/-- `scipy.linalg.solve(A, b)`: returns the solution of the square system when
`A` is nonsingular and raises `LinAlgError` (modelled by `none`) otherwise. -/
noncomputable def linSolve {n : ℕ} (A : Matrix (Fin n) (Fin n) ℝ) (b : Fin n → ℝ) :
    Option (Fin n → ℝ) :=
  if A.det = 0 then none else some (A⁻¹.mulVec b)

/-- `np.sqrt` on a scalar: NaN (modelled as `none`) for a negative argument. -/
noncomputable def npSqrt (x : ℝ) : Option ℝ := if x < 0 then none else some (Real.sqrt x)

/-! ## The overlap-add window (dehumming.py lines 32-36) -/

/-- `np.hamming(M)`: `0.54 - 0.46*cos(2*pi*n/(M-1))` for `n = 0..M-1`, with
numpy's special case `np.hamming(1) = [1.0]`. -/
noncomputable def npHamming (M : ℕ) : List ℝ :=
  if M = 1 then [1]
  else List.ofFn fun n : Fin M => 0.54 - 0.46 * Real.cos (2 * π * n / ((M : ℝ) - 1))

/-- numpy elementwise addition of two 1-D arrays, with broadcasting of a
length-1 operand; shapes that do not broadcast raise (modelled by `none`). -/
def npBroadcastAdd (a b : List ℝ) : Option (List ℝ) :=
  if a.length = b.length then some (List.zipWith (· + ·) a b)
  else if a.length = 1 then some (b.map fun x => a.getD 0 0 + x)
  else if b.length = 1 then some (a.map fun x => x + b.getD 0 0)
  else none

/-- numpy in-place division `lhs /= rhs`: the right-hand side must broadcast to
the shape of the left-hand side. -/
noncomputable def npInplaceDiv (lhs rhs : List ℝ) : Option (List ℝ) :=
  if rhs.length = lhs.length then some (List.zipWith (· / ·) lhs rhs)
  else if rhs.length = 1 then some (lhs.map fun x => x / rhs.getD 0 0)
  else none

/-- numpy in-place slice assignment `lhs[:] = rhs`: the right-hand side must
broadcast to the shape of the left-hand side. -/
def npInplaceAssign (lhs rhs : List ℝ) : Option (List ℝ) :=
  if rhs.length = lhs.length then some rhs
  else if rhs.length = 1 then some (List.replicate lhs.length (rhs.getD 0 0))
  else none

/-- The overlap-add window of `dehummer` (dehumming.py lines 32-36):
`window = np.hamming(blklen)`;
`window[0:blklen_o2] /= window[0:blklen_o2] + window[blklen_o2:blklen]`;
`window[blklen_o2:blklen] = np.flipud(window[0:blklen_o2])`. -/
noncomputable def mkWindow (blklen : ℕ) : Option (List ℝ) := do
  let h := blklen / 2
  let w := npHamming blklen
  let wa := w.take h
  let wb := w.drop h
  let s ← npBroadcastAdd wa wb
  let wa2 ← npInplaceDiv wa s
  let wb2 ← npInplaceAssign wb wa2.reverse
  pure (wa2 ++ wb2)

/-! ## Harmonic regression (dehumming.py, single_estimate, lines 122-148) -/

/-- The design matrix of `single_estimate`: column `c < hm` holds
`cos(2*pi*f*(c+1)/fs * t)` and column `hm + k` holds the same shifted by
`pi/2` (the code builds `X = cos(concatenate([fact @ p.T, fact @ p.T + pi/2]).T)`). -/
noncomputable def designX (n : ℕ) (f fs : ℝ) (hm : ℕ) : Matrix (Fin n) (Fin (2 * hm)) ℝ :=
  fun t c =>
    Real.cos (2 * π * f / fs *
      (((if (c : ℕ) < hm then (c : ℕ) + 1 else (c : ℕ) - hm + 1) : ℕ) : ℝ) * (t : ℕ) +
      if (c : ℕ) < hm then 0 else π / 2)

/-- `single_estimate(sigin, f, fs, hmax)`: solve `(X^T X) theta = X^T sigin`
and return `X theta`; `none` models the `LinAlgError` scipy raises when
`X^T X` is singular. -/
noncomputable def singleEstimate (sigin : List ℝ) (f fs : ℝ) (hm : ℕ) : Option (List ℝ) :=
  let X := designX sigin.length f fs hm
  let XX := X.transpose * X
  let Xy := X.transpose.mulVec fun t => sigin.getD t 0
  (linSolve XX Xy).map fun theta => List.ofFn (X.mulVec theta)

/-- Residual energy of a block at candidate frequency `f`:
`np.dot(sigout.T, sigout)` for `sigout = sigin - single_estimate(sigin, f, fs, hmax)`. -/
noncomputable def resEnergy (sigb : List ℝ) (fs : ℝ) (hm : ℕ) (f : ℝ) : Option ℝ :=
  (singleEstimate sigb f fs hm).map fun est => npDot (listSub sigb est) (listSub sigb est)

/-! ## The per-block frequency search (dehumming.py lines 64-85) -/

/-- `shifts = np.r_[-np.arange(1, 10)[::-1], np.arange(1, 10)]`, i.e.
`[-9, ..., -1, 1, ..., 9]`. -/
def searchShifts : List ℤ :=
  ((List.range 9).map fun i : ℕ => -((9 : ℤ) - (i : ℤ))) ++
    (List.range 9).map fun i : ℕ => (i : ℤ) + 1

/-- The step sizes of the refinement, in the iteration order of the CPython
set literal `{0.1, 0.01}` (float hashes place 0.1 in slot 0 and 0.01 in
slot 4 of the 8-slot table, so iteration yields 0.1 first). -/
def searchDeltas : List ℝ := [0.1, 0.01]

/-- Per-block search state: current anchor `f0`, running best frequency,
best residual block, best residual energy, and the list of frequencies at
which the refinement invoked `single_estimate` (in call order). -/
structure SearchSt where
  f0 : ℝ
  bestF : ℝ
  bestOut : List ℝ
  bestE : ℝ
  trace : List ℝ

/-- One iteration of the inner `for shift in shifts` loop of `dehummer`:
evaluate `f = f0 + shift * delta` and keep it iff it strictly lowers the
residual energy. -/
noncomputable def shiftStep (sigb : List ℝ) (fs : ℝ) (hm : ℕ) (delta : ℝ)
    (st : SearchSt) (shift : ℤ) : Option SearchSt :=
  let f := st.f0 + (shift : ℝ) * delta
  (singleEstimate sigb f fs hm).map fun est =>
    let out := listSub sigb est
    let e := npDot out out
    if e < st.bestE then
      { f0 := st.f0, bestF := f, bestOut := out, bestE := e, trace := st.trace ++ [f] }
    else
      { st with trace := st.trace ++ [f] }

/-- One iteration of the outer `for delta in {0.1, 0.01}` loop: run all 18
shifts, then re-anchor `f0` at the current best frequency. -/
noncomputable def deltaStep (sigb : List ℝ) (fs : ℝ) (hm : ℕ)
    (st : SearchSt) (delta : ℝ) : Option SearchSt := do
  let st2 ← searchShifts.foldlM (shiftStep sigb fs hm delta) st
  pure { st2 with f0 := st2.bestF }

/-- The state before the refinement loops (dehumming.py lines 65-69):
`f0 = enf`, best residual and energy from the initial regression at `enf`. -/
noncomputable def initSearchSt (sigb : List ℝ) (fs : ℝ) (hm : ℕ) (enf : ℝ) :
    Option SearchSt :=
  (singleEstimate sigb enf fs hm).map fun est =>
    let out := listSub sigb est
    { f0 := enf, bestF := enf, bestOut := out, bestE := npDot out out, trace := [] }

/-- The whole per-block frequency search of `dehummer` (lines 64-85). -/
noncomputable def blockSearch (sigb : List ℝ) (fs : ℝ) (hm : ℕ) (enf : ℝ) :
    Option SearchSt := do
  let st0 ← initSearchSt sigb fs hm enf
  searchDeltas.foldlM (deltaStep sigb fs hm) st0

/-- The frequencies at which the refinement evaluates the regression:
the coarse pass anchored at `c0` with step 0.1, then the fine pass anchored
at `c1` with step 0.01. -/
def refineTrace (c0 c1 : ℝ) : List ℝ :=
  (searchShifts.map fun s : ℤ => c0 + (s : ℝ) * 0.1) ++
    searchShifts.map fun s : ℤ => c1 + (s : ℝ) * 0.01

/-! ## The dehummer block loop (dehumming.py lines 30-98) -/

/-- `tstart` after boundary truncation (lines 51-54). -/
def tstartOf (h tmid : ℕ) : ℤ := if (tmid : ℤ) - h < 0 then 0 else (tmid : ℤ) - h

/-- `wstart` after boundary truncation (lines 51-56). -/
def wstartOf (h tmid : ℕ) : ℤ := if (tmid : ℤ) - h < 0 then -((tmid : ℤ) - h) else 0

/-- `tstop` after boundary truncation (lines 57-60). -/
def tstopOf (tmax h tmid : ℕ) : ℤ :=
  if (tmid : ℤ) + h > tmax then tmax else (tmid : ℤ) + h

/-- `wstop` after boundary truncation (lines 57-62). -/
def wstopOf (tmax blklen h tmid : ℕ) : ℤ :=
  if (tmid : ℤ) + h > tmax then (blklen : ℤ) + tmax - ((tmid : ℤ) + h) else blklen

/-- Number of iterations of `for tmid in range(0, tmax + blklen_o2, blklen_o2)`
(for `h = blklen_o2 ≥ 1`). -/
def nblocksOf (tmax h : ℕ) : ℕ := (tmax + 2 * h - 1) / h

/-- Length of the preallocated track `freq = np.zeros(2 + 2 * tmax // blklen)`. -/
def freqLenOf (tmax blklen : ℕ) : ℕ := 2 + 2 * tmax / blklen

/-- The successive block centers `range(0, tmax + blklen_o2, blklen_o2)`. -/
def tmidList (tmax h : ℕ) : List ℕ := (List.range (nblocksOf tmax h)).map (· * h)

/-- `result[off : off + len(vs)] += vs` on an array `xs`. -/
def listAddInto (xs : List ℝ) (off : ℕ) (vs : List ℝ) : List ℝ :=
  (List.range xs.length).map fun t =>
    xs.getD t 0 + if off ≤ t ∧ t < off + vs.length then vs.getD (t - off) 0 else 0

/-- `hmax = min(hmax, int(0.5 * fs / enf))` (line 30). -/
noncomputable def clampedHmax (fs enf : ℝ) (hmaxIn : ℤ) : ℤ :=
  min hmaxIn (pyInt (0.5 * fs / enf))

/-- Loop state of the block loop: accumulated output, frequency track, and
the write index `kf`. -/
structure DehumSt where
  result : List ℝ
  freq : List ℝ
  kf : ℕ

/-- One iteration of the block loop (lines 49-95): slice the block, run the
frequency search, accumulate the windowed best residual, record `best_f`. -/
noncomputable def dehumBlock (sig : List ℝ) (fs enf : ℝ) (hm : ℕ) (window : List ℝ)
    (blklen h : ℕ) (st : DehumSt) (tmid : ℕ) : Option DehumSt := do
  let tmax := sig.length
  let ts := (tstartOf h tmid).toNat
  let tp := (tstopOf tmax h tmid).toNat
  let ws := (wstartOf h tmid).toNat
  let wp := (wstopOf tmax blklen h tmid).toNat
  let sigb := (sig.drop ts).take (tp - ts)
  let sr ← blockSearch sigb fs hm enf
  let wsl := (window.drop ws).take (wp - ws)
  pure { result := listAddInto st.result ts (List.zipWith (· * ·) sr.bestOut wsl),
         freq := st.freq.set st.kf sr.bestF,
         kf := st.kf + 1 }

/-- `dehummer(sig, fs, enf, hmax, blklen)` (dehumming.py lines 18-98, plotting
elided). Returns the denoised signal together with the internal frequency
track `freq` (exposed for specification purposes; the early `hmax == 0`
return happens before `freq` is allocated, hence the empty track there).
`none` models an exception: a numpy broadcast error while building the
window (odd `blklen`), `range` with step 0 (`blklen < 2`), or a scipy
`LinAlgError` in a regression solve. -/
noncomputable def dehummer (sig : List ℝ) (fs enf : ℝ) (hmaxIn : ℤ) (blklen : ℕ) :
    Option (List ℝ × List ℝ) := do
  let hmax := clampedHmax fs enf hmaxIn
  let window ← mkWindow blklen
  if hmax = 0 then pure (sig, ([] : List ℝ)) else
  let h := blklen / 2
  if h = 0 then none else
  let tmax := sig.length
  let st0 : DehumSt :=
    { result := List.replicate tmax 0, freq := List.replicate (freqLenOf tmax blklen) 0,
      kf := 0 }
  let stN ← (tmidList tmax h).foldlM (dehumBlock sig fs enf hmax.toNat window blklen h) st0
  pure (stN.result, stN.freq)

/-! ## ARMA estimation (arma.py lines 37-62) -/

/-- Real part of `fftpack.ifft(psd, fftlen)[n]` for a real `psd` of length
`fftlen`: `(1/N) * sum_k psd[k] * cos(2*pi*k*n/N)`. In the modelled code all
accessed lags `n` stay below `fftlen`. -/
noncomputable def correlOf (psd : List ℝ) (n : ℕ) : ℝ :=
  (1 / (psd.length : ℝ)) *
    ∑ k ∈ Finset.range psd.length, psd.getD k 0 * Real.cos (2 * π * k * n / psd.length)

/-- The exceptions `Arma.estimate` can raise: scipy's `LinAlgError` on a
singular Toeplitz system (named `SingularSystemError` by the spec), and the
`NotImplementedError` for a nonzero MA order (the spec's `NotSupportedError`). -/
inductive ArmaError where
  | singular
  | maNotImplemented
deriving DecidableEq

/-- The mutable state of an `Arma` instance that `estimate` touches: the
orders, the most recent PSD `self.psd[-1][0]`, and the fitted coefficients
(`none` before the attribute is first assigned). `MA` entries are
`Option ℝ` because `np.sqrt` of a negative variance stores NaN. -/
structure ArmaState where
  ordar : ℕ
  ordma : ℕ
  psd : List ℝ
  AR_ : Option (List ℝ)
  MA : Option (List (Option ℝ))

/-- Result of a (possibly failing) `estimate` call: the state after the call
(Python exceptions leave prior in-place mutations visible) plus the raised
exception, if any. -/
structure EstimateOutcome where
  state : ArmaState
  error : Option ArmaError

/-- The Toeplitz matrix `R = linalg.toeplitz(col1, row1)` of `Arma.estimate`
with the default `nbcorr = ordar`: `col1 = correl[ordma : ordma + ordar]`,
`row1 = correl[np.abs(np.arange(ordma, ordma - ordar, -1))]`. -/
noncomputable def ywR (psd : List ℝ) (ordar ordma : ℕ) : Matrix (Fin ordar) (Fin ordar) ℝ :=
  fun i j =>
    if (j : ℕ) ≤ (i : ℕ) then correlOf psd (ordma + ((i : ℕ) - (j : ℕ)))
    else correlOf psd ((ordma : ℤ) - (((j : ℕ) - (i : ℕ) : ℕ) : ℤ)).natAbs

/-- The right-hand side `r = -correl[ordma + 1 : ordma + nbcorr + 1]` with
the default `nbcorr = ordar`. -/
noncomputable def ywr (psd : List ℝ) (ordar ordma : ℕ) : Fin ordar → ℝ :=
  fun i => -correlOf psd (ordma + 1 + (i : ℕ))

/-- The AR coefficient vector `AR = linalg.solve(R, r)` computed by
`Arma.estimate` when the system is nonsingular. -/
noncomputable def ywAR (psd : List ℝ) (ordar ordma : ℕ) : Fin ordar → ℝ :=
  (ywR psd ordar ordma)⁻¹.mulVec (ywr psd ordar ordma)

/-- The driving-noise variance `sigma2 = correl[0] + np.dot(AR, correl[1:ordar+1])`
computed by `Arma.estimate` in the `ordma == 0` branch. -/
noncomputable def ywSigma2 (psd : List ℝ) (ordar : ℕ) : ℝ :=
  correlOf psd 0 + ∑ i, ywAR psd ordar 0 i * correlOf psd ((i : ℕ) + 1)

/-- `Arma.estimate()` with the default `nbcorr = ordar`, `numpsd = -1`
(arma.py lines 37-62). `self.AR_` is assigned before the MA branch, so a
`NotImplementedError` for `ordma != 0` still leaves the new AR coefficients
behind. For `ordma == 0` the gain is `sqrt(correl[0] + AR . correl[1:ordar+1])`,
NaN (modelled `none`) when the variance is negative. -/
noncomputable def estimate (s : ArmaState) : EstimateOutcome :=
  match linSolve (ywR s.psd s.ordar s.ordma) (ywr s.psd s.ordar s.ordma) with
  | none => { state := s, error := some ArmaError.singular }
  | some AR =>
    if s.ordma = 0 then
      let sigma2 := correlOf s.psd 0 + ∑ i, AR i * correlOf s.psd ((i : ℕ) + 1)
      { state := { s with AR_ := some (List.ofFn AR), MA := some [npSqrt sigma2] },
        error := none }
    else
      { state := { s with AR_ := some (List.ofFn AR) },
        error := some ArmaError.maNotImplemented }

/-- Claim-side definition, following the words of the spec (section 4.1,
algorithm step 2): a Toeplitz matrix built from correlation lags
`0..ordar-1`, i.e. entry `(i, j)` holds lag `|i - j|`. -/
noncomputable def specYWMatrix (psd : List ℝ) (ordar : ℕ) : Matrix (Fin ordar) (Fin ordar) ℝ :=
  fun i j => correlOf psd (((i : ℕ) : ℤ) - ((j : ℕ) : ℤ)).natAbs

/-- Claim-side definition: the negated correlation lags `1..ordar`. -/
noncomputable def specYWrhs (psd : List ℝ) (ordar : ℕ) : Fin ordar → ℝ :=
  fun i => -correlOf psd (1 + (i : ℕ))

/-- Claim-side definition: driving-noise variance
`correl[0] + sum_i AR[i] * correl[i+1]`. -/
noncomputable def specYWsigma2 (psd : List ℝ) (ordar : ℕ) (AR : Fin ordar → ℝ) : ℝ :=
  correlOf psd 0 + ∑ i, AR i * correlOf psd ((i : ℕ) + 1)

/-- Claim-side pipeline of C5, following the spec text: autocorrelation from
the PSD, Yule-Walker solve on the lag-`|i-j|` Toeplitz system with negated
lags `1..ordar` on the right, gain the square root of the implied variance. -/
noncomputable def specEstimate (psd : List ℝ) (ordar : ℕ) : Option (List ℝ × Option ℝ) :=
  (linSolve (specYWMatrix psd ordar) (specYWrhs psd ordar)).map fun AR =>
    (List.ofFn AR, npSqrt (specYWsigma2 psd ordar AR))

/-! ## ENF-aware whitening (preprocess.py lines 179-251) -/

/-- Normalization of a Python slice endpoint for a sequence of length `len`:
negative indices count from the end, out-of-range values clamp. -/
def pyIdx (len : ℕ) (i : ℤ) : ℕ := if i < 0 then (i + len).toNat else min len i.toNat

/-- numpy slice assignment `xs[i:j] = vals`: the value array must have
exactly the slice's length or length 1 (scalar broadcast, which also
matches an empty slice); other shapes raise (modelled by `none`). -/
def pySliceAssign (xs : List ℝ) (i j : ℤ) (vals : List ℝ) : Option (List ℝ) :=
  let s := pyIdx xs.length i
  let e := pyIdx xs.length j
  if vals.length = e - s then
    some ((List.range xs.length).map fun t =>
      if s ≤ t ∧ t < e then vals.getD (t - s) 0 else xs.getD t 0)
  else if vals.length = 1 then
    some ((List.range xs.length).map fun t =>
      if s ≤ t ∧ t < e then vals.getD 0 0 else xs.getD t 0)
  else none

/-- `kmin = max(0, int(fftlen * fmin / fs))` (preprocess.py line 208). -/
noncomputable def kminOf (N : ℕ) (fs fmin : ℝ) : ℤ := max 0 (pyInt ((N : ℝ) * fmin / fs))

/-- `kmax = min(fftlen // 2, int(fftlen * fmax / fs) + 1)` (line 209). -/
noncomputable def kmaxOf (N : ℕ) (fs fmax : ℝ) : ℤ :=
  min (((N / 2 : ℕ) : ℤ)) (pyInt ((N : ℝ) * fmax / fs) + 1)

/-- The interpolation array
`Amin * np.linspace(1, 0, m, endpoint=False) + Amax * np.linspace(0, 1, m, endpoint=False)`. -/
noncomputable def interpolOf (Amin Amax : ℝ) (m : ℕ) : List ℝ :=
  List.ofFn fun j : Fin m => Amin * (1 - (j : ℝ) / m) + Amax * ((j : ℝ) / m)

/-- One iteration of the harmonic-notch loop of `whiten` (lines 205-220) for
harmonic `k`: overwrite `psd[kmin:kmax]` with the interpolation and
`psd[-kmax:-kmin]` with its reverse. `none` models the `ValueError` numpy
raises when a slice assignment does not broadcast (notably the empty
negative-frequency slice when `kmin = 0`). -/
noncomputable def notchStep (fs enf tol : ℝ) (k : ℕ) (psd : List ℝ) : Option (List ℝ) :=
  let N := psd.length
  let kmin := kminOf N fs ((k : ℝ) * (enf - tol))
  let kmax := kmaxOf N fs ((k : ℝ) * (enf + tol))
  if kmax - kmin < 0 then none
  else
    let Amin := psd.getD kmin.toNat 0
    let Amax := psd.getD kmax.toNat 0
    let interpol := interpolOf Amin Amax (kmax - kmin).toNat
    do
      let p1 ← pySliceAssign psd kmin kmax interpol
      pySliceAssign p1 (-kmax) (-kmin) interpol.reverse

/-- The number of iterations of `while k * (enf - d_enf) < fs / 2` starting
at `k = 1`. The source loop does not terminate when `enf ≤ d_enf`; the model
is meaningful only for `enf - d_enf > 0`, where the iteration count is
`ceil(fs / (2*(enf - d_enf))) - 1`. -/
noncomputable def numHarmonics (fs enf tol : ℝ) : ℕ :=
  if enf - tol ≤ 0 then 0 else (⌈fs / (2 * (enf - tol))⌉ - 1).toNat

/-- The whole harmonic-notch loop of `whiten` applied to the most recent PSD. -/
noncomputable def notchLoop (fs enf tol : ℝ) (psd : List ℝ) : Option (List ℝ) :=
  (List.range' 1 (numHarmonics fs enf tol)).foldlM (fun p k => notchStep fs enf tol k p) psd

/-- Full linear convolution of two arrays (length `len x + len h - 1`);
out-of-range accesses contribute 0 via `getD`. -/
def fullConv (x h : List ℝ) : List ℝ :=
  List.ofFn fun n : Fin (x.length + h.length - 1) =>
    ∑ k ∈ Finset.range ((n : ℕ) + 1), x.getD k 0 * h.getD ((n : ℕ) - k) 0

/-- `scipy.signal.fftconvolve(x, h, 'same')`: the centered slice of the full
convolution, of the length of the first argument. -/
def convSame (x h : List ℝ) : List ℝ :=
  ((fullConv x h).drop ((h.length - 1) / 2)).take x.length

/-- The part of `whiten` after the notch loop (preprocess.py lines 222-236):
optionally take the PSD's square root (zero-phase mode), fit the AR model,
and apply `Arma.inverse` (a 'same'-length convolution with `[1] + AR`) once,
or forward and time-reversed for zero phase. `none` models a propagated
estimation failure. -/
noncomputable def whitenCore (sig : List ℝ) (ordar : ℕ) (zeroPhase : Bool)
    (psdN : List ℝ) : Option (List ℝ) :=
  let psdZ := if zeroPhase then psdN.map Real.sqrt else psdN
  let out := estimate { ordar := ordar, ordma := 0, psd := psdZ, AR_ := none, MA := none }
  match out.error with
  | some _ => none
  | none =>
    match out.state.AR_ with
    | none => none
    | some AR =>
      let arpart := 1 :: AR
      if zeroPhase then
        pure ((convSame ((convSame sig arpart).reverse) arpart).reverse)
      else
        pure (convSame sig arpart)

/-- `whiten` before the final gain rescaling. `psd0` is the periodogram of
`sig`. Modelled from the spec: `Spectrum.periodogram` (the external PSD
accumulator, not under src/) is not reimplemented; its output enters as the
argument `psd0`, per spec section 6 an arbitrary windowed-periodogram PSD. -/
noncomputable def whitenFiltered (sig : List ℝ) (fs : ℝ) (ordar : ℕ) (enf tol : ℝ)
    (zeroPhase : Bool) (psd0 : List ℝ) : Option (List ℝ) :=
  (notchLoop fs enf tol psd0).bind (whitenCore sig ordar zeroPhase)

/-- `whiten(sig, fs, ordar, enf, d_enf, zero_phase)` (preprocess.py lines
179-251, plotting elided): notch, fit, inverse-filter, then rescale by
`gain = np.std(sig) / np.std(sigout)`. -/
noncomputable def whiten (sig : List ℝ) (fs : ℝ) (ordar : ℕ) (enf tol : ℝ)
    (zeroPhase : Bool) (psd0 : List ℝ) : Option (List ℝ) :=
  (whitenFiltered sig fs ordar enf tol zeroPhase psd0).map fun sigout =>
    sigout.map fun x => x * (npStd sig / npStd sigout)

/-- Claim-side definition for the degenerate case of C6: plain whitening of
the unmodified PSD (the same pipeline with no notch applied). -/
noncomputable def whitenPlain (sig : List ℝ) (ordar : ℕ) (zeroPhase : Bool)
    (psd0 : List ℝ) : Option (List ℝ) :=
  (whitenCore sig ordar zeroPhase psd0).map fun sigout =>
    sigout.map fun x => x * (npStd sig / npStd sigout)

/-! ## Helper lemmas: the Hamming window -/

theorem npHamming_length (M : ℕ) : (npHamming M).length = M := by
  unfold npHamming
  split
  · simp [*]
  · simp

theorem npHamming_getD (M n : ℕ) (hn : n < M) (h1 : M ≠ 1) :
    (npHamming M).getD n 0 = 0.54 - 0.46 * Real.cos (2 * π * n / ((M : ℝ) - 1)) := by
  unfold npHamming
  rw [if_neg h1]
  rw [List.getD_eq_getElem _ _ (by simpa using hn)]
  simp

theorem npHamming_ge (M n : ℕ) (hn : n < M) : 0.08 ≤ (npHamming M).getD n 0 := by
  by_cases h1 : M = 1
  · subst h1
    interval_cases n
    norm_num [npHamming]
  · rw [npHamming_getD M n hn h1]
    have := Real.cos_le_one (2 * π * n / ((M : ℝ) - 1))
    nlinarith

theorem cos_two_pi_sub_eq (x : ℝ) : Real.cos (2 * π - x) = Real.cos x := by
  rw [Real.cos_sub, Real.cos_two_pi, Real.sin_two_pi]
  ring

theorem npHamming_symm (M n : ℕ) (hn : n < M) :
    (npHamming M).getD n 0 = (npHamming M).getD (M - 1 - n) 0 := by
  by_cases h1 : M = 1
  · subst h1
    interval_cases n
    norm_num
  · have hM2 : 2 ≤ M := by omega
    have hn2 : M - 1 - n < M := by omega
    rw [npHamming_getD M n hn h1, npHamming_getD M (M - 1 - n) hn2 h1]
    have hd : ((M : ℝ) - 1) ≠ 0 := by
      have : (2 : ℝ) ≤ (M : ℝ) := by exact_mod_cast hM2
      linarith
    have hcast : ((M - 1 - n : ℕ) : ℝ) = (M : ℝ) - 1 - n := by
      have h1n : 1 + n ≤ M := by omega
      rw [Nat.sub_sub, Nat.cast_sub h1n]
      push_cast
      ring
    rw [hcast]
    have harg : 2 * π * ((M : ℝ) - 1 - n) / ((M : ℝ) - 1) =
        2 * π - 2 * π * n / ((M : ℝ) - 1) := by
      field_simp
      ring
    rw [harg, cos_two_pi_sub_eq]

theorem take_getD (l : List ℝ) (m j : ℕ) (h1 : j < m) (h2 : j < l.length) :
    (l.take m).getD j 0 = l.getD j 0 := by
  rw [List.getD_eq_getElem _ _ (by rw [List.length_take]; omega),
      List.getD_eq_getElem _ _ h2]
  exact List.getElem_take _

theorem drop_getD (l : List ℝ) (m j : ℕ) (h : m + j < l.length) :
    (l.drop m).getD j 0 = l.getD (m + j) 0 := by
  rw [List.getD_eq_getElem _ _ (by rw [List.length_drop]; omega),
      List.getD_eq_getElem _ _ h]
  exact List.getElem_drop _

theorem reverse_getD (l : List ℝ) (j : ℕ) (h : j < l.length) :
    l.reverse.getD j 0 = l.getD (l.length - 1 - j) 0 := by
  rw [List.getD_eq_getElem _ _ (by rw [List.length_reverse]; omega),
      List.getD_eq_getElem _ _ (by omega)]
  exact List.getElem_reverse _

theorem zipWith_getD (f : ℝ → ℝ → ℝ) (xs ys : List ℝ) (j : ℕ)
    (hx : j < xs.length) (hy : j < ys.length) :
    (List.zipWith f xs ys).getD j 0 = f (xs.getD j 0) (ys.getD j 0) := by
  rw [List.getD_eq_getElem _ _ (by rw [List.length_zipWith]; omega),
      List.getD_eq_getElem _ _ hx, List.getD_eq_getElem _ _ hy]
  exact List.getElem_zipWith

/-- For an even block length the window construction succeeds, with first
half `w[j] = ham[j] / (ham[j] + ham[h+j])` and second half its reverse. -/
theorem mkWindow_two_mul (h : ℕ) :
    mkWindow (2 * h) =
      some (List.zipWith (· / ·) ((npHamming (2 * h)).take h)
              (List.zipWith (· + ·) ((npHamming (2 * h)).take h)
                ((npHamming (2 * h)).drop h)) ++
            (List.zipWith (· / ·) ((npHamming (2 * h)).take h)
              (List.zipWith (· + ·) ((npHamming (2 * h)).take h)
                ((npHamming (2 * h)).drop h))).reverse) := by
  have hl : (npHamming (2 * h)).length = 2 * h := npHamming_length _
  have hdiv : 2 * h / 2 = h := by omega
  have hwa : ((npHamming (2 * h)).take h).length = h := by
    rw [List.length_take, hl]; omega
  have hwb : ((npHamming (2 * h)).drop h).length = h := by
    rw [List.length_drop, hl]; omega
  have hs : (List.zipWith (· + ·) ((npHamming (2 * h)).take h)
      ((npHamming (2 * h)).drop h)).length = h := by
    rw [List.length_zipWith, hwa, hwb]; omega
  have hq : (List.zipWith (· / ·) ((npHamming (2 * h)).take h)
      (List.zipWith (· + ·) ((npHamming (2 * h)).take h)
        ((npHamming (2 * h)).drop h))).length = h := by
    rw [List.length_zipWith, hwa, hs]; omega
  have st1 : npBroadcastAdd ((npHamming (2 * h)).take h) ((npHamming (2 * h)).drop h) =
      some (List.zipWith (· + ·) ((npHamming (2 * h)).take h)
        ((npHamming (2 * h)).drop h)) := by
    unfold npBroadcastAdd
    rw [if_pos (hwa.trans hwb.symm)]
  have st2 : npInplaceDiv ((npHamming (2 * h)).take h)
      (List.zipWith (· + ·) ((npHamming (2 * h)).take h) ((npHamming (2 * h)).drop h)) =
      some (List.zipWith (· / ·) ((npHamming (2 * h)).take h)
        (List.zipWith (· + ·) ((npHamming (2 * h)).take h)
          ((npHamming (2 * h)).drop h))) := by
    unfold npInplaceDiv
    rw [if_pos (hs.trans hwa.symm)]
  have st3 : npInplaceAssign ((npHamming (2 * h)).drop h)
      (List.zipWith (· / ·) ((npHamming (2 * h)).take h)
        (List.zipWith (· + ·) ((npHamming (2 * h)).take h)
          ((npHamming (2 * h)).drop h))).reverse =
      some (List.zipWith (· / ·) ((npHamming (2 * h)).take h)
        (List.zipWith (· + ·) ((npHamming (2 * h)).take h)
          ((npHamming (2 * h)).drop h))).reverse := by
    unfold npInplaceAssign
    rw [if_pos (by rw [List.length_reverse, hq, hwb])]
  simp only [mkWindow, hdiv, st1, st2, st3, Option.bind_eq_bind, Option.some_bind]
  rfl

/-- C1: the overlap-add window built by dehummer (a Hamming window of length
blklen renormalized over its first half and mirrored into its second half)
satisfies `window[i] + window[i + blklen/2] = 1` for every `i < blklen/2`,
for every even block length `blklen ≥ 2` (exactly, in real arithmetic). -/
theorem c1_window_overlap_add (blklen i : ℕ) (heven : blklen % 2 = 0)
    (hbl : 2 ≤ blklen) (hi : i < blklen / 2) :
    ∃ w, mkWindow blklen = some w ∧ w.getD i 0 + w.getD (i + blklen / 2) 0 = 1 := by
  obtain ⟨h, rfl⟩ : ∃ h, blklen = 2 * h := ⟨blklen / 2, by omega⟩
  have hh : 1 ≤ h := by omega
  have hdiv : 2 * h / 2 = h := by omega
  simp only [hdiv] at hi ⊢
  have hl : (npHamming (2 * h)).length = 2 * h := npHamming_length _
  have hwa : ((npHamming (2 * h)).take h).length = h := by
    rw [List.length_take, hl]; omega
  have hwb : ((npHamming (2 * h)).drop h).length = h := by
    rw [List.length_drop, hl]; omega
  refine ⟨_, mkWindow_two_mul h, ?_⟩
  have hLlen : (List.zipWith (· / ·) ((npHamming (2 * h)).take h)
      (List.zipWith (· + ·) ((npHamming (2 * h)).take h)
        ((npHamming (2 * h)).drop h))).length = h := by
    rw [List.length_zipWith, List.length_zipWith, hwa, hwb]; omega
  have hLval : ∀ j, j < h → (List.zipWith (· / ·) ((npHamming (2 * h)).take h)
      (List.zipWith (· + ·) ((npHamming (2 * h)).take h)
        ((npHamming (2 * h)).drop h))).getD j 0 =
      (npHamming (2 * h)).getD j 0 /
        ((npHamming (2 * h)).getD j 0 + (npHamming (2 * h)).getD (h + j) 0) := by
    intro j hj
    rw [zipWith_getD _ _ _ _ (by omega) (by rw [List.length_zipWith]; omega),
        zipWith_getD _ _ _ _ (by omega) (by omega),
        take_getD _ _ _ hj (by omega), drop_getD _ _ _ (by omega)]
  have hfirst : ∀ (L : List ℝ), L.length = h →
      (L ++ L.reverse).getD i 0 = L.getD i 0 :=
    fun L hLl => List.getD_append _ _ _ _ (by omega)
  have hsecond : ∀ (L : List ℝ), L.length = h →
      (L ++ L.reverse).getD (i + h) 0 = L.getD (h - 1 - i) 0 := by
    intro L hLl
    rw [List.getD_append_right _ _ _ _ (by omega), reverse_getD _ _ (by omega), hLl]
    congr 1
    omega
  rw [hfirst _ hLlen, hsecond _ hLlen]
  rw [hLval i hi, hLval (h - 1 - i) (by omega)]
  have e1 : (npHamming (2 * h)).getD (h - 1 - i) 0 = (npHamming (2 * h)).getD (h + i) 0 := by
    have hsym := npHamming_symm (2 * h) (h - 1 - i) (by omega)
    rw [hsym]
    congr 1
    omega
  have e2 : (npHamming (2 * h)).getD (h + (h - 1 - i)) 0 = (npHamming (2 * h)).getD i 0 := by
    have hsym := npHamming_symm (2 * h) (h + (h - 1 - i)) (by omega)
    rw [hsym]
    congr 1
    omega
  rw [e1, e2]
  have ha : 0.08 ≤ (npHamming (2 * h)).getD i 0 := npHamming_ge _ _ (by omega)
  have hb : 0.08 ≤ (npHamming (2 * h)).getD (h + i) 0 := npHamming_ge _ _ (by omega)
  have hab : (npHamming (2 * h)).getD i 0 + (npHamming (2 * h)).getD (h + i) 0 ≠ 0 := by
    nlinarith
  rw [add_comm ((npHamming (2 * h)).getD (h + i) 0) ((npHamming (2 * h)).getD i 0),
      div_add_div_same, div_self hab]

/-- C1 witness at `blklen = 2`, `i = 0`. -/
theorem c1_window_overlap_add_witness :
    2 % 2 = 0 ∧ 2 ≤ 2 ∧ 0 < 2 / 2 ∧
      ∃ w, mkWindow 2 = some w ∧ w.getD 0 0 + w.getD (0 + 2 / 2) 0 = 1 :=
  ⟨by norm_num, by norm_num, by norm_num,
    c1_window_overlap_add 2 0 (by norm_num) (by norm_num) (by norm_num)⟩

/-! ## C10: block index safety -/

theorem nblocksOf_le_two_add_div (tmax h : ℕ) (hh : 1 ≤ h) :
    nblocksOf tmax h ≤ 2 + tmax / h := by
  rw [nblocksOf, Nat.div_le_iff_le_mul_add_pred hh, Nat.mul_add]
  have hq := Nat.div_add_mod tmax h
  have hr := Nat.mod_lt tmax hh
  generalize h * (tmax / h) = P at hq ⊢
  omega

theorem nblocksOf_le_freqLenOf (tmax blklen : ℕ) (heven : blklen % 2 = 0)
    (hbl : 2 ≤ blklen) : nblocksOf tmax (blklen / 2) ≤ freqLenOf tmax blklen := by
  have hh : 1 ≤ blklen / 2 := by omega
  have hbe : blklen = 2 * (blklen / 2) := by omega
  have hflen : 2 * tmax / blklen = tmax / (blklen / 2) := by
    conv_lhs => rw [hbe]
    rw [Nat.mul_div_mul_left _ _ (by norm_num : 0 < 2)]
  rw [freqLenOf, hflen]
  exact nblocksOf_le_two_add_div tmax (blklen / 2) hh

/-- C10: for every block center of the loop, the truncated indices satisfy
`0 ≤ tstart ≤ tstop ≤ tmax` and `tstop - tstart = wstop - wstart`, and the
number of processed blocks (= number of writes into `freq`) never exceeds
`2 + 2*tmax/blklen`, the length of the preallocated track. -/
theorem c10_block_index_safety (tmax blklen tmid : ℕ) (heven : blklen % 2 = 0)
    (hbl : 2 ≤ blklen) (htm : 1 ≤ tmax) (hmem : tmid ∈ tmidList tmax (blklen / 2)) :
    0 ≤ tstartOf (blklen / 2) tmid ∧
    tstartOf (blklen / 2) tmid ≤ tstopOf tmax (blklen / 2) tmid ∧
    tstopOf tmax (blklen / 2) tmid ≤ (tmax : ℤ) ∧
    tstopOf tmax (blklen / 2) tmid - tstartOf (blklen / 2) tmid =
      wstopOf tmax blklen (blklen / 2) tmid - wstartOf (blklen / 2) tmid ∧
    nblocksOf tmax (blklen / 2) ≤ 2 + 2 * tmax / blklen ∧
    nblocksOf tmax (blklen / 2) ≤ freqLenOf tmax blklen := by
  set h := blklen / 2 with hdef
  have hh : 1 ≤ h := by omega
  have hbe : blklen = 2 * h := by omega
  obtain ⟨i, hi, rfl⟩ : ∃ i, i < nblocksOf tmax h ∧ i * h = tmid := by
    simpa [tmidList, List.mem_map, List.mem_range] using hmem
  have hnb : nblocksOf tmax h * h ≤ tmax + 2 * h - 1 := Nat.div_mul_le_self _ _
  have hmid : i * h + h ≤ tmax + 2 * h - 1 := by
    calc i * h + h = (i + 1) * h := by ring
    _ ≤ nblocksOf tmax h * h := Nat.mul_le_mul_right h hi
    _ ≤ tmax + 2 * h - 1 := hnb
  have hkey : nblocksOf tmax h ≤ 2 + tmax / h := nblocksOf_le_two_add_div tmax h hh
  have hflen : 2 * tmax / blklen = tmax / h := by
    rw [hbe, Nat.mul_div_mul_left _ _ (by norm_num : 0 < 2)]
  refine ⟨?_, ?_, ?_, ?_, ?_, ?_⟩
  · unfold tstartOf; split <;> omega
  · unfold tstartOf tstopOf; split <;> split <;> omega
  · unfold tstopOf; split <;> omega
  · unfold tstartOf tstopOf wstartOf wstopOf; split <;> split <;> omega
  · rw [hflen]; exact hkey
  · rw [freqLenOf, hflen]; exact hkey

/-- C10 witness at `tmax = 1`, `blklen = 2`, `tmid = 0`. -/
theorem c10_block_index_safety_witness :
    2 % 2 = 0 ∧ 2 ≤ 2 ∧ 1 ≤ 1 ∧ 0 ∈ tmidList 1 (2 / 2) ∧
      (0 ≤ tstartOf (2 / 2) 0 ∧
       tstartOf (2 / 2) 0 ≤ tstopOf 1 (2 / 2) 0 ∧
       tstopOf 1 (2 / 2) 0 ≤ (1 : ℤ) ∧
       tstopOf 1 (2 / 2) 0 - tstartOf (2 / 2) 0 =
         wstopOf 1 2 (2 / 2) 0 - wstartOf (2 / 2) 0 ∧
       nblocksOf 1 (2 / 2) ≤ 2 + 2 * 1 / 2 ∧
       nblocksOf 1 (2 / 2) ≤ freqLenOf 1 2) :=
  ⟨by norm_num, by norm_num, by norm_num, by decide,
    c10_block_index_safety 1 2 0 (by norm_num) (by norm_num) (by norm_num) (by decide)⟩

/-! ## Helper lemmas: ARMA estimation -/

theorem mulVec_inv_fin_one (A : Matrix (Fin 1) (Fin 1) ℝ) (b : Fin 1 → ℝ) :
    A⁻¹.mulVec b = fun i => (A 0 0)⁻¹ * b i := by
  rw [Matrix.inv_def, Matrix.adjugate_fin_one, Matrix.det_fin_one]
  funext i
  rw [Matrix.smul_mulVec_assoc, Matrix.one_mulVec]
  simp [Ring.inverse_eq_inv']

theorem ywR_ordma_zero (psd : List ℝ) (ordar : ℕ) :
    ywR psd ordar 0 = specYWMatrix psd ordar := by
  funext i j
  unfold ywR specYWMatrix
  by_cases hle : (j : ℕ) ≤ (i : ℕ)
  · rw [if_pos hle]
    congr 1
    omega
  · rw [if_neg hle]
    congr 1
    omega

theorem ywr_ordma_zero (psd : List ℝ) (ordar : ℕ) :
    ywr psd ordar 0 = specYWrhs psd ordar := by
  funext i
  unfold ywr specYWrhs
  norm_num

/-- C5: with `ordma = 0`, `Arma.estimate` computes exactly the claimed
pipeline: autocorrelation as the real part of the inverse Fourier transform
of the PSD, the Toeplitz system on lags `0..ordar-1` against the negated
lags `1..ordar` solved for the AR coefficients, and the gain as the square
root of `correl[0] + sum_i AR[i] * correl[i+1]`. -/
theorem c5_estimate_equals_spec_pipeline (psd : List ℝ) (ordar : ℕ)
    (AR0 : Option (List ℝ)) (MA0 : Option (List (Option ℝ))) :
    estimate { ordar := ordar, ordma := 0, psd := psd, AR_ := AR0, MA := MA0 } =
      match specEstimate psd ordar with
      | none =>
        { state := { ordar := ordar, ordma := 0, psd := psd, AR_ := AR0, MA := MA0 },
          error := some ArmaError.singular }
      | some (ARl, gain) =>
        { state := { ordar := ordar, ordma := 0, psd := psd, AR_ := some ARl,
                     MA := some [gain] },
          error := none } := by
  unfold estimate specEstimate
  simp only [ywR_ordma_zero, ywr_ordma_zero]
  cases hls : linSolve (specYWMatrix psd ordar) (specYWrhs psd ordar) with
  | none => simp
  | some AR =>
    simp only [Option.map_some']
    rfl

/-- C3 (amended): with `ordma = 0`, `estimate` raises the singularity error
exactly when the Yule-Walker Toeplitz matrix is singular, leaving the state
untouched (no order reduction, retry, or fallback); when the system is
nonsingular no error is raised at all, and a negative implied noise
variance silently produces a NaN gain (`some [none]`) instead of an error. -/
theorem c3_singular_raises_negative_variance_does_not (s : ArmaState)
    (h0 : s.ordma = 0) :
    ((ywR s.psd s.ordar s.ordma).det = 0 →
      estimate s = { state := s, error := some ArmaError.singular }) ∧
    ((ywR s.psd s.ordar s.ordma).det ≠ 0 → (estimate s).error = none) ∧
    ((ywR s.psd s.ordar s.ordma).det ≠ 0 → ywSigma2 s.psd s.ordar < 0 →
      (estimate s).state.MA = some [none]) := by
  obtain ⟨oar, oma, psd, ar0, ma0⟩ := s
  simp only at h0
  subst h0
  unfold estimate linSolve
  refine ⟨fun hdet => ?_, fun hdet => ?_, fun hdet hneg => ?_⟩
  · rw [if_pos hdet]
  · rw [if_neg hdet]
    rfl
  · rw [if_neg hdet]
    show some [npSqrt (ywSigma2 psd oar)] = some [none]
    unfold npSqrt
    rw [if_pos hneg]

/-! ### Concrete correlation computations for the Arma counterexamples -/

theorem correl_c3 (n : ℕ) : correlOf [3, 0, -1, 0] n = (3 - Real.cos (π * n)) / 4 := by
  unfold correlOf
  norm_num [Finset.sum_range_succ]
  rw [show 2 * π * 2 * (n : ℝ) / 4 = π * n from by ring]
  ring

theorem correl_c8 (n : ℕ) : correlOf [1, 0, 0, 0] n = 1 / 4 := by
  unfold correlOf
  norm_num [Finset.sum_range_succ]

/-- C3 counterexample: on the PSD `[3, 0, -1, 0]` with `ordar = 1` the
Toeplitz system is nonsingular and the implied driving-noise variance is
negative (`-3/2`), yet `estimate` raises no error: it returns normally with
a NaN gain. This refutes the claim that a negative variance raises
`SingularSystemError`. -/
theorem c3_negative_variance_no_error_counterexample :
    ywSigma2 [3, 0, -1, 0] 1 < 0 ∧
    (estimate { ordar := 1, ordma := 0, psd := [3, 0, -1, 0],
                AR_ := none, MA := none }).error = none ∧
    (estimate { ordar := 1, ordma := 0, psd := [3, 0, -1, 0],
                AR_ := none, MA := none }).state.MA = some [none] := by
  have hR : ∀ i j : Fin 1, ywR [3, 0, -1, 0] 1 0 i j = 1 / 2 := by
    intro i j
    fin_cases i
    fin_cases j
    unfold ywR
    norm_num [correl_c3]
  have hdet : (ywR [3, 0, -1, 0] 1 0).det = 1 / 2 := by
    rw [Matrix.det_fin_one, hR]
  have hAR : ywAR [3, 0, -1, 0] 1 0 = fun _ => -2 := by
    unfold ywAR
    rw [mulVec_inv_fin_one]
    funext i
    rw [hR 0 0]
    unfold ywr
    norm_num [correl_c3, Real.cos_pi]
  have hsig : ywSigma2 [3, 0, -1, 0] 1 < 0 := by
    unfold ywSigma2
    rw [hAR]
    norm_num [correl_c3, Real.cos_pi, Fin.sum_univ_one]
  have hmain := c3_singular_raises_negative_variance_does_not
    { ordar := 1, ordma := 0, psd := [3, 0, -1, 0], AR_ := none, MA := none } rfl
  exact ⟨hsig, hmain.2.1 (by rw [hdet]; norm_num), hmain.2.2 (by rw [hdet]; norm_num) hsig⟩

/-- C3 witness: the amended statement applied at the same concrete state. -/
theorem c3_singular_raises_witness :
    ((ywR ([3, 0, -1, 0] : List ℝ) 1 0).det = 0 →
      estimate { ordar := 1, ordma := 0, psd := [3, 0, -1, 0], AR_ := none, MA := none } =
        { state := { ordar := 1, ordma := 0, psd := [3, 0, -1, 0],
                     AR_ := none, MA := none },
          error := some ArmaError.singular }) ∧
    ((ywR ([3, 0, -1, 0] : List ℝ) 1 0).det ≠ 0 →
      (estimate { ordar := 1, ordma := 0, psd := [3, 0, -1, 0],
                  AR_ := none, MA := none }).error = none) ∧
    ((ywR ([3, 0, -1, 0] : List ℝ) 1 0).det ≠ 0 → ywSigma2 [3, 0, -1, 0] 1 < 0 →
      (estimate { ordar := 1, ordma := 0, psd := [3, 0, -1, 0],
                  AR_ := none, MA := none }).state.MA = some [none]) :=
  c3_singular_raises_negative_variance_does_not
    { ordar := 1, ordma := 0, psd := [3, 0, -1, 0], AR_ := none, MA := none } rfl

/-- C8 (amended): a call with nonzero MA order always fails (with the
not-implemented error, or the singularity error if the solve fails first)
and never estimates the MA part (`MA` is untouched); however the call is not
a state no-op: when the solve succeeds, `AR_` is overwritten with the new
coefficients before the exception is raised. -/
theorem c8_nonzero_ordma_fails_but_mutates (s : ArmaState) (hma : s.ordma ≠ 0) :
    ((estimate s).error = some ArmaError.singular ∧ (estimate s).state = s) ∨
    ((estimate s).error = some ArmaError.maNotImplemented ∧
      (estimate s).state =
        { s with AR_ := some (List.ofFn (ywAR s.psd s.ordar s.ordma)) }) := by
  unfold estimate linSolve
  by_cases hdet : (ywR s.psd s.ordar s.ordma).det = 0
  · left
    rw [if_pos hdet]
    exact ⟨by trivial, by trivial⟩
  · right
    rw [if_neg hdet]
    simp only [if_neg hma]
    exact ⟨by trivial, by trivial⟩

/-- C8 counterexample: on the PSD `[1, 0, 0, 0]` with `ordar = 1`,
`ordma = 1`, the failing `estimate` call overwrites `AR_` (from unset to
`[-1]`) before raising, refuting the claim that the failed call leaves the
estimator's state unchanged. -/
theorem c8_failing_call_mutates_state_counterexample :
    (estimate { ordar := 1, ordma := 1, psd := [1, 0, 0, 0],
                AR_ := none, MA := none }).error = some ArmaError.maNotImplemented ∧
    ({ ordar := 1, ordma := 1, psd := [1, 0, 0, 0],
       AR_ := none, MA := none } : ArmaState).AR_ = none ∧
    (estimate { ordar := 1, ordma := 1, psd := [1, 0, 0, 0],
                AR_ := none, MA := none }).state.AR_ = some [-1] := by
  have hR : ∀ i j : Fin 1, ywR [1, 0, 0, 0] 1 1 i j = 1 / 4 := by
    intro i j
    fin_cases i
    fin_cases j
    unfold ywR
    norm_num [correl_c8]
  have hdet : (ywR [1, 0, 0, 0] 1 1).det = 1 / 4 := by
    rw [Matrix.det_fin_one, hR]
  have hAR : ywAR [1, 0, 0, 0] 1 1 = fun _ => -1 := by
    unfold ywAR
    rw [mulVec_inv_fin_one]
    funext i
    rw [hR 0 0]
    unfold ywr
    norm_num [correl_c8]
  have hsolve : linSolve (ywR [1, 0, 0, 0] 1 1) (ywr [1, 0, 0, 0] 1 1) =
      some fun _ => -1 := by
    unfold linSolve
    rw [if_neg (by rw [hdet]; norm_num)]
    rw [show (ywR [1, 0, 0, 0] 1 1)⁻¹.mulVec (ywr [1, 0, 0, 0] 1 1) =
        ywAR [1, 0, 0, 0] 1 1 from rfl, hAR]
  refine ⟨?_, rfl, ?_⟩ <;>
    simp [estimate, hsolve, List.ofFn_succ]

/-- C8 witness: the amended statement applied at the same concrete state. -/
theorem c8_nonzero_ordma_fails_witness :
    (1 : ℕ) ≠ 0 ∧
    (((estimate { ordar := 1, ordma := 1, psd := [1, 0, 0, 0],
                  AR_ := none, MA := none }).error = some ArmaError.singular ∧
      (estimate { ordar := 1, ordma := 1, psd := [1, 0, 0, 0],
                  AR_ := none, MA := none }).state =
        { ordar := 1, ordma := 1, psd := [1, 0, 0, 0], AR_ := none, MA := none }) ∨
     ((estimate { ordar := 1, ordma := 1, psd := [1, 0, 0, 0],
                  AR_ := none, MA := none }).error = some ArmaError.maNotImplemented ∧
      (estimate { ordar := 1, ordma := 1, psd := [1, 0, 0, 0],
                  AR_ := none, MA := none }).state =
        { ordar := 1, ordma := 1, psd := [1, 0, 0, 0],
          AR_ := some (List.ofFn (ywAR [1, 0, 0, 0] 1 1)), MA := none })) :=
  ⟨by norm_num,
    c8_nonzero_ordma_fails_but_mutates
      { ordar := 1, ordma := 1, psd := [1, 0, 0, 0], AR_ := none, MA := none }
      (by norm_num)⟩

/-! ## C7: degenerate harmonic count -/

theorem mkWindow_three : mkWindow 3 = none := by
  have hl : (npHamming 3).length = 3 := npHamming_length 3
  have hwa : ((npHamming 3).take 1).length = 1 := by
    rw [List.length_take, hl]
    norm_num
  have hwb : ((npHamming 3).drop 1).length = 2 := by
    rw [List.length_drop, hl]
  have hadd : npBroadcastAdd ((npHamming 3).take 1) ((npHamming 3).drop 1) =
      some (((npHamming 3).drop 1).map fun x => ((npHamming 3).take 1).getD 0 0 + x) := by
    unfold npBroadcastAdd
    rw [if_neg (by rw [hwa, hwb]; norm_num), if_pos hwa]
  have hdiv : npInplaceDiv ((npHamming 3).take 1)
      (((npHamming 3).drop 1).map fun x => ((npHamming 3).take 1).getD 0 0 + x) = none := by
    unfold npInplaceDiv
    rw [if_neg (by rw [List.length_map, hwb, hwa]; norm_num),
        if_neg (by rw [List.length_map, hwb]; norm_num)]
  simp only [mkWindow, show (3 : ℕ) / 2 = 1 from rfl, hadd, Option.bind_eq_bind,
    Option.some_bind, hdiv, Option.none_bind]

theorem clampedHmax_c7 : clampedHmax 10 50 5 = 0 := by
  unfold clampedHmax pyInt
  rw [if_neg (by norm_num)]
  rw [show (0.5 : ℝ) * 10 / 50 = 0.1 from by norm_num]
  rw [Int.floor_eq_zero_iff.mpr (by constructor <;> norm_num)]
  norm_num

/-- C7 counterexample: with `fs = 10`, `enf = 50` the clamped harmonic count
resolves to 0 (`0.5*fs/enf = 0.1 < 1`), yet `dehummer` on `blklen = 3` does
not return the input: the window construction raises a numpy broadcast
error (odd block length) before the `hmax == 0` check is reached. -/
theorem c7_odd_blklen_raises_counterexample :
    clampedHmax 10 50 5 = 0 ∧ dehummer [1] 10 50 5 3 = none := by
  refine ⟨clampedHmax_c7, ?_⟩
  simp only [dehummer, mkWindow_three, Option.bind_eq_bind, Option.none_bind]

/-- C7 (amended): whenever the window construction succeeds (in particular
for every even block length) and the clamped harmonic count
`min(max_harmonics, int(0.5*fs/enf))` resolves to 0, `dehummer` returns the
input signal unchanged and raises no error; the early return happens before
the block loop, so no regression solve is performed. -/
theorem c7_hmax_zero_returns_input (sig : List ℝ) (fs enf : ℝ) (hmaxIn : ℤ)
    (blklen : ℕ) (w : List ℝ) (hw : mkWindow blklen = some w)
    (hz : clampedHmax fs enf hmaxIn = 0) :
    dehummer sig fs enf hmaxIn blklen = some (sig, []) := by
  simp only [dehummer, hw, hz, Option.bind_eq_bind, Option.some_bind, if_pos]
  rfl

/-- C7 witness: at `fs = 10`, `enf = 50`, `hmax = 5`, `blklen = 2` the
degenerate case returns the input unchanged. -/
theorem c7_hmax_zero_returns_input_witness :
    (∃ w, mkWindow 2 = some w) ∧ clampedHmax 10 50 5 = 0 ∧
      dehummer [1] 10 50 5 2 = some ([1], []) :=
  ⟨⟨_, mkWindow_two_mul 1⟩, clampedHmax_c7,
    c7_hmax_zero_returns_input [1] 10 50 5 2 _ (mkWindow_two_mul 1) clampedHmax_c7⟩

/-! ## Helper lemmas: lists of zeros, getD computations -/

theorem map_getD_range (xs : List ℝ) :
    (List.range xs.length).map (fun t => xs.getD t 0) = xs := by
  apply List.ext_getElem
  · simp
  · intro i h1 h2
    simp only [List.getElem_map, List.getElem_range]
    rw [List.getD_eq_getElem _ _ h2]

theorem getD_set_self (l : List ℝ) (i : ℕ) (a : ℝ) (h : i < l.length) :
    (l.set i a).getD i 0 = a := by
  rw [List.getD_eq_getElem _ _ (by rw [List.length_set]; omega)]
  simp

theorem getD_set_ne (l : List ℝ) (i j : ℕ) (a : ℝ) (hne : i ≠ j) :
    (l.set i a).getD j 0 = l.getD j 0 := by
  by_cases hj : j < l.length
  · rw [List.getD_eq_getElem _ _ (by rw [List.length_set]; omega),
        List.getD_eq_getElem _ _ hj]
    exact List.getElem_set_ne hne _
  · rw [List.getD_eq_default _ _ (by rw [List.length_set]; omega),
        List.getD_eq_default _ _ (by omega)]

theorem listSub_replicate_zero (xs : List ℝ) :
    listSub xs (List.replicate xs.length 0) = xs := by
  induction xs with
  | nil => rfl
  | cons x t ih => simp only [listSub, List.length_cons, List.replicate_succ,
      List.zipWith_cons_cons, sub_zero] at ih ⊢; rw [ih]

theorem npDot_replicate_zero (n : ℕ) (ys : List ℝ) :
    npDot (List.replicate n 0) ys = 0 := by
  induction n generalizing ys with
  | zero => simp [npDot]
  | succ k ih =>
    cases ys with
    | nil => simp [npDot]
    | cons y t =>
      simp only [npDot, List.replicate_succ, List.zipWith_cons_cons, List.sum_cons,
        zero_mul, zero_add] at ih ⊢
      exact ih t

theorem zip_mul_replicate_zero (m : ℕ) (ws : List ℝ) (k : ℕ) :
    (List.zipWith (· * ·) (List.replicate m 0) ws).getD k 0 = 0 := by
  by_cases hk : k < (List.zipWith (· * ·) (List.replicate m (0 : ℝ)) ws).length
  · rw [List.getD_eq_getElem _ _ hk]
    rw [List.getElem_zipWith]
    rw [List.getElem_replicate]
    exact zero_mul _
  · rw [List.getD_eq_default _ _ (by omega)]

theorem listAddInto_zero (xs : List ℝ) (off : ℕ) (vs : List ℝ)
    (hv : ∀ k, vs.getD k 0 = 0) : listAddInto xs off vs = xs := by
  unfold listAddInto
  have hz : ∀ t : ℕ,
      (if off ≤ t ∧ t < off + vs.length then vs.getD (t - off) 0 else 0) = 0 := by
    intro t
    split
    · exact hv _
    · rfl
  simp only [hz, add_zero]
  exact map_getD_range xs

/-! ## The search with zero harmonics (used to exhibit a completed search) -/

theorem singleEstimate_hm_zero (sigin : List ℝ) (f fs : ℝ) :
    singleEstimate sigin f fs 0 = some (List.replicate sigin.length 0) := by
  haveI : IsEmpty (Fin (2 * 0)) := inferInstanceAs (IsEmpty (Fin 0))
  simp only [singleEstimate, linSolve]
  rw [if_neg (by rw [Matrix.det_isEmpty]; norm_num)]
  simp only [Option.map_some']
  congr 1
  have hmv : (designX sigin.length f fs 0).mulVec
      (((designX sigin.length f fs 0).transpose * designX sigin.length f fs 0)⁻¹.mulVec
        ((designX sigin.length f fs 0).transpose.mulVec fun t => sigin.getD t 0)) =
      fun _ => (0 : ℝ) := by
    funext t
    simp [Matrix.mulVec, Matrix.dotProduct]
  rw [hmv]
  exact List.ofFn_const _ _

theorem foldlM_shiftStep_hm_zero (sigb : List ℝ) (fs delta : ℝ) (l : List ℤ)
    (st : SearchSt) (hE : st.bestE = npDot sigb sigb) :
    l.foldlM (shiftStep sigb fs 0 delta) st =
      some { st with trace := st.trace ++ l.map fun s : ℤ => st.f0 + (s : ℝ) * delta } := by
  induction l generalizing st with
  | nil => simp
  | cons s rest ih =>
    rw [List.foldlM_cons]
    simp only [shiftStep]
    rw [singleEstimate_hm_zero]
    simp only [Option.map_some', Option.some_bind]
    rw [listSub_replicate_zero]
    rw [if_neg (by rw [hE]; exact lt_irrefl _)]
    simp only [Option.bind_eq_bind, Option.some_bind]
    rw [ih { st with trace := st.trace ++ [st.f0 + (s : ℝ) * delta] } hE]
    simp [List.append_assoc]

theorem blockSearch_hm_zero (sigb : List ℝ) (fs enf : ℝ) :
    blockSearch sigb fs 0 enf =
      some { f0 := enf, bestF := enf, bestOut := sigb, bestE := npDot sigb sigb,
             trace := refineTrace enf enf } := by
  unfold blockSearch initSearchSt
  rw [singleEstimate_hm_zero]
  simp only [Option.map_some', Option.some_bind]
  rw [listSub_replicate_zero]
  show searchDeltas.foldlM (deltaStep sigb fs 0)
    { f0 := enf, bestF := enf, bestOut := sigb, bestE := npDot sigb sigb, trace := [] } = _
  rw [show searchDeltas = [0.1, 0.01] from rfl]
  rw [List.foldlM_cons]
  unfold deltaStep
  rw [foldlM_shiftStep_hm_zero _ _ _ _ _ rfl]
  simp only [Option.bind_eq_bind, Option.some_bind, Option.pure_def,
    List.foldlM_cons, List.foldlM_nil]
  rw [foldlM_shiftStep_hm_zero _ _ _ _ _ rfl]
  simp only [Option.bind_eq_bind, Option.some_bind]
  rfl

/-! ## The greedy refinement: general invariant of the shift loop -/

theorem foldlM_shiftStep_spec (sigb : List ℝ) (fs : ℝ) (hm : ℕ) (delta : ℝ)
    (l : List ℤ) (st st2 : SearchSt)
    (hfold : l.foldlM (shiftStep sigb fs hm delta) st = some st2) :
    st2.f0 = st.f0 ∧
    st2.trace = st.trace ++ l.map (fun s : ℤ => st.f0 + (s : ℝ) * delta) ∧
    st2.bestE ≤ st.bestE ∧
    (∀ s ∈ l, ∃ e, resEnergy sigb fs hm (st.f0 + (s : ℝ) * delta) = some e ∧
      st2.bestE ≤ e) ∧
    ((st2.bestF = st.bestF ∧ st2.bestE = st.bestE ∧ st2.bestOut = st.bestOut) ∨
      (∃ s ∈ l, st2.bestF = st.f0 + (s : ℝ) * delta ∧
        resEnergy sigb fs hm st2.bestF = some st2.bestE)) := by
  induction l generalizing st with
  | nil =>
    obtain rfl : st = st2 := by simpa using hfold
    simp
  | cons s rest ih =>
    rw [List.foldlM_cons] at hfold
    simp only [shiftStep] at hfold
    cases hse : singleEstimate sigb (st.f0 + (s : ℝ) * delta) fs hm with
    | none =>
      rw [hse] at hfold
      simp at hfold
    | some est =>
      rw [hse] at hfold
      simp only [Option.map_some', Option.bind_eq_bind, Option.some_bind] at hfold
      have hres : resEnergy sigb fs hm (st.f0 + (s : ℝ) * delta) =
          some (npDot (listSub sigb est) (listSub sigb est)) := by
        simp [resEnergy, hse]
      by_cases hlt : npDot (listSub sigb est) (listSub sigb est) < st.bestE
      · rw [if_pos hlt] at hfold
        obtain ⟨h0, htr, hE, hall, hbest⟩ := ih _ hfold
        refine ⟨h0, ?_, ?_, ?_, ?_⟩
        · rw [htr]
          simp [List.append_assoc]
        · exact le_trans hE (le_of_lt hlt)
        · intro u hu
          rcases List.mem_cons.mp hu with rfl | hu2
          · exact ⟨_, hres, hE⟩
          · obtain ⟨e, he1, he2⟩ := hall u hu2
            exact ⟨e, he1, he2⟩
        · rcases hbest with ⟨hbf, hbe, _⟩ | ⟨u, hu, hbf, hbe⟩
          · right
            refine ⟨s, List.mem_cons_self _ _, hbf, ?_⟩
            rw [hbf, hbe]
            exact hres
          · right
            exact ⟨u, List.mem_cons_of_mem _ hu, hbf, hbe⟩
      · rw [if_neg hlt] at hfold
        obtain ⟨h0, htr, hE, hall, hbest⟩ := ih _ hfold
        refine ⟨h0, ?_, hE, ?_, ?_⟩
        · rw [htr]
          simp [List.append_assoc]
        · intro u hu
          rcases List.mem_cons.mp hu with rfl | hu2
          · exact ⟨_, hres, le_trans hE (not_lt.mp hlt)⟩
          · obtain ⟨e, he1, he2⟩ := hall u hu2
            exact ⟨e, he1, he2⟩
        · rcases hbest with ⟨hbf, hbe, hbo⟩ | ⟨u, hu, hbf, hbe⟩
          · left
            exact ⟨hbf, hbe, hbo⟩
          · right
            exact ⟨u, List.mem_cons_of_mem _ hu, hbf, hbe⟩

/-- C2: for every block whose frequency search completes, the refinement
runs the 0.1 Hz pass first and the 0.01 Hz pass second; each pass tries the
candidate frequencies `f0 + s*delta` for the 18 integer shifts
`s ∈ {-9..-1, 1..9}`; the frequency kept as the new anchor `f0` of the fine
pass attains the minimum residual energy over the nominal frequency and all
coarse candidates; and the refinement performs exactly `2 * 18` regression
solves (the trace of evaluated candidate frequencies). -/
theorem c2_refinement_coarse_to_fine (sigb : List ℝ) (fs : ℝ) (hm : ℕ) (enf : ℝ)
    (st : SearchSt) (hsearch : blockSearch sigb fs hm enf = some st) :
    ∃ st0 st1, initSearchSt sigb fs hm enf = some st0 ∧
      deltaStep sigb fs hm st0 0.1 = some st1 ∧
      deltaStep sigb fs hm st1 0.01 = some st ∧
      st1.f0 = st1.bestF ∧
      resEnergy sigb fs hm st1.bestF = some st1.bestE ∧
      (∀ e, resEnergy sigb fs hm enf = some e → st1.bestE ≤ e) ∧
      (∀ s ∈ searchShifts, ∀ e,
        resEnergy sigb fs hm (enf + (s : ℝ) * 0.1) = some e → st1.bestE ≤ e) ∧
      (st1.bestF = enf ∨ ∃ s ∈ searchShifts, st1.bestF = enf + (s : ℝ) * 0.1) ∧
      st.trace = refineTrace enf st1.bestF ∧
      st.trace.length = 2 * 18 := by
  unfold blockSearch at hsearch
  cases hi : initSearchSt sigb fs hm enf with
  | none =>
    rw [hi] at hsearch
    simp at hsearch
  | some st0 =>
    rw [hi] at hsearch
    simp only [Option.bind_eq_bind, Option.some_bind] at hsearch
    rw [show searchDeltas = [0.1, 0.01] from rfl, List.foldlM_cons] at hsearch
    cases hd1 : deltaStep sigb fs hm st0 0.1 with
    | none =>
      rw [hd1] at hsearch
      simp at hsearch
    | some st1 =>
      rw [hd1] at hsearch
      simp only [Option.bind_eq_bind, Option.some_bind, List.foldlM_cons,
        List.foldlM_nil] at hsearch
      cases hd2 : deltaStep sigb fs hm st1 0.01 with
      | none =>
        rw [hd2] at hsearch
        simp at hsearch
      | some stm =>
        rw [hd2] at hsearch
        simp only [Option.bind_eq_bind, Option.some_bind, Option.pure_def,
          Option.some.injEq] at hsearch
        subst hsearch
        -- properties of the initial state
        obtain ⟨est0, hse0, hst0⟩ : ∃ est0, singleEstimate sigb enf fs hm = some est0 ∧
            st0 = { f0 := enf, bestF := enf, bestOut := listSub sigb est0,
                    bestE := npDot (listSub sigb est0) (listSub sigb est0),
                    trace := [] } := by
          unfold initSearchSt at hi
          cases hse : singleEstimate sigb enf fs hm with
          | none => rw [hse] at hi; simp at hi
          | some est0 =>
            rw [hse] at hi
            simp only [Option.map_some', Option.some.injEq] at hi
            exact ⟨est0, rfl, hi.symm⟩
        have hres0 : resEnergy sigb fs hm enf =
            some (npDot (listSub sigb est0) (listSub sigb est0)) := by
          simp [resEnergy, hse0]
        -- decompose the coarse pass
        obtain ⟨st1p, hfold1, hst1⟩ : ∃ st1p,
            searchShifts.foldlM (shiftStep sigb fs hm 0.1) st0 = some st1p ∧
            st1 = { st1p with f0 := st1p.bestF } := by
          unfold deltaStep at hd1
          cases hf : searchShifts.foldlM (shiftStep sigb fs hm 0.1) st0 with
          | none => rw [hf] at hd1; simp at hd1
          | some v =>
            rw [hf] at hd1
            simp only [Option.bind_eq_bind, Option.some_bind, Option.pure_def,
              Option.some.injEq] at hd1
            exact ⟨v, rfl, hd1.symm⟩
        obtain ⟨hp0, hptr, hpE, hpall, hpbest⟩ :=
          foldlM_shiftStep_spec sigb fs hm 0.1 searchShifts st0 st1p hfold1
        rw [hst0] at hp0 hptr hpE hpall hpbest
        simp only at hp0 hptr hpE hpall hpbest
        -- decompose the fine pass
        obtain ⟨stmp, hfold2, hstm⟩ : ∃ stmp,
            searchShifts.foldlM (shiftStep sigb fs hm 0.01) st1 = some stmp ∧
            stm = { stmp with f0 := stmp.bestF } := by
          unfold deltaStep at hd2
          cases hf : searchShifts.foldlM (shiftStep sigb fs hm 0.01) st1 with
          | none => rw [hf] at hd2; simp at hd2
          | some v =>
            rw [hf] at hd2
            simp only [Option.bind_eq_bind, Option.some_bind, Option.pure_def,
              Option.some.injEq] at hd2
            exact ⟨v, rfl, hd2.symm⟩
        obtain ⟨hq0, hqtr, _, _, _⟩ :=
          foldlM_shiftStep_spec sigb fs hm 0.01 searchShifts st1 stmp hfold2
        refine ⟨st0, st1, rfl, hd1, hd2, ?_, ?_, ?_, ?_, ?_, ?_, ?_⟩
        · rw [hst1]
        · rcases hpbest with ⟨hbf, hbe, _⟩ | ⟨u, _, hbf, hbe⟩
          · rw [hst1]
            simp only
            rw [hbf, hbe, hres0]
          · rw [hst1]
            simp only
            exact hbe
        · intro e he
          rw [hres0] at he
          obtain rfl : npDot (listSub sigb est0) (listSub sigb est0) = e := by
            simpa using he
          rw [hst1]
          simpa using hpE
        · intro s hs e he
          obtain ⟨e2, he2, hle2⟩ := hpall s hs
          rw [he] at he2
          obtain rfl : e = e2 := by simpa using he2
          rw [hst1]
          simpa using hle2
        · rcases hpbest with ⟨hbf, _, _⟩ | ⟨u, hu, hbf, _⟩
          · left
            rw [hst1]
            simpa using hbf
          · right
            rw [hst1]
            exact ⟨u, hu, by simpa using hbf⟩
        · rw [hstm]
          simp only
          rw [hqtr, hst1]
          simp only
          rw [hptr]
          simp [refineTrace]
        · rw [hstm]
          simp only
          rw [hqtr, hst1]
          simp only
          rw [hptr]
          simp [searchShifts]

/-- C2 witness: a completed search (at `hmax = 0`, where every regression
degenerates to the zero estimate) instantiating the refinement theorem. -/
theorem c2_refinement_coarse_to_fine_witness :
    ∃ st0 st1, initSearchSt [1] 4 0 50 = some st0 ∧
      deltaStep [1] 4 0 st0 0.1 = some st1 ∧
      deltaStep [1] 4 0 st1 0.01 =
        some { f0 := 50, bestF := 50, bestOut := [1], bestE := npDot [1] [1],
               trace := refineTrace 50 50 } ∧
      st1.f0 = st1.bestF ∧
      resEnergy [1] 4 0 st1.bestF = some st1.bestE ∧
      (∀ e, resEnergy [1] 4 0 50 = some e → st1.bestE ≤ e) ∧
      (∀ s ∈ searchShifts, ∀ e,
        resEnergy [1] 4 0 (50 + (s : ℝ) * 0.1) = some e → st1.bestE ≤ e) ∧
      (st1.bestF = 50 ∨ ∃ s ∈ searchShifts, st1.bestF = 50 + (s : ℝ) * 0.1) ∧
      ({ f0 := 50, bestF := 50, bestOut := [1], bestE := npDot [1] [1],
         trace := refineTrace 50 50 } : SearchSt).trace = refineTrace 50 st1.bestF ∧
      ({ f0 := 50, bestF := 50, bestOut := [1], bestE := npDot [1] [1],
         trace := refineTrace 50 50 } : SearchSt).trace.length = 2 * 18 :=
  c2_refinement_coarse_to_fine [1] 4 0 50
    { f0 := 50, bestF := 50, bestOut := [1], bestE := npDot [1] [1],
      trace := refineTrace 50 50 }
    (blockSearch_hm_zero [1] 4 50)

/-! ## Zero-signal behavior of the search (for C9) -/

theorem singleEstimate_zero_out (n : ℕ) (f fs : ℝ) (hm : ℕ) (r : List ℝ)
    (h : singleEstimate (List.replicate n 0) f fs hm = some r) :
    r = List.replicate n 0 := by
  have hv : (fun t : Fin (List.replicate n (0 : ℝ)).length =>
      (List.replicate n (0 : ℝ)).getD t 0) = 0 := by
    funext t
    show (List.replicate n (0 : ℝ)).getD (t : ℕ) 0 = 0
    rw [List.getD_eq_getElem _ _ t.isLt]
    exact List.getElem_replicate _ _
  simp only [singleEstimate, linSolve, hv, Matrix.mulVec_zero] at h
  split at h
  · simp at h
  · simp only [Option.map_some', Option.some.injEq, Matrix.mulVec_zero] at h
    rw [← h]
    rw [show (0 : Fin (List.replicate n (0 : ℝ)).length → ℝ) = fun _ => (0 : ℝ) from rfl]
    rw [List.ofFn_const, List.length_replicate]

theorem sub_replicate_replicate (n : ℕ) :
    listSub (List.replicate n (0 : ℝ)) (List.replicate n 0) = List.replicate n 0 := by
  have hx := listSub_replicate_zero (List.replicate n (0 : ℝ))
  rwa [List.length_replicate] at hx

theorem foldlM_shiftStep_zero_inv (n : ℕ) (fs delta : ℝ) (hm : ℕ) (l : List ℤ)
    (st st2 : SearchSt) (hE : st.bestE = 0)
    (hfold : l.foldlM (shiftStep (List.replicate n 0) fs hm delta) st = some st2) :
    st2.bestF = st.bestF ∧ st2.bestOut = st.bestOut ∧ st2.bestE = 0 ∧ st2.f0 = st.f0 := by
  induction l generalizing st with
  | nil =>
    obtain rfl : st = st2 := by simpa using hfold
    exact ⟨rfl, rfl, hE, rfl⟩
  | cons s rest ih =>
    rw [List.foldlM_cons] at hfold
    simp only [shiftStep] at hfold
    cases hse : singleEstimate (List.replicate n 0) (st.f0 + (s : ℝ) * delta) fs hm with
    | none =>
      rw [hse] at hfold
      simp at hfold
    | some est =>
      have hest := singleEstimate_zero_out n _ fs hm est hse
      rw [hse] at hfold
      subst hest
      simp only [Option.map_some', Option.bind_eq_bind, Option.some_bind,
        sub_replicate_replicate, npDot_replicate_zero, hE, lt_self_iff_false,
        if_false] at hfold
      obtain ⟨h1, h2, h3, h4⟩ := ih _ rfl hfold
      exact ⟨h1, h2, h3, h4⟩

theorem deltaStep_zero_inv (n : ℕ) (fs delta : ℝ) (hm : ℕ) (st st2 : SearchSt)
    (hE : st.bestE = 0)
    (h : deltaStep (List.replicate n 0) fs hm st delta = some st2) :
    st2.bestF = st.bestF ∧ st2.bestOut = st.bestOut ∧ st2.bestE = 0 ∧
      st2.f0 = st.bestF := by
  unfold deltaStep at h
  cases hf : searchShifts.foldlM (shiftStep (List.replicate n 0) fs hm delta) st with
  | none =>
    rw [hf] at h
    simp at h
  | some v =>
    rw [hf] at h
    simp only [Option.bind_eq_bind, Option.some_bind, Option.pure_def,
      Option.some.injEq] at h
    obtain ⟨h1, h2, h3, h4⟩ := foldlM_shiftStep_zero_inv n fs delta hm searchShifts st v hE hf
    subst h
    exact ⟨h1, h2, h3, h1⟩

theorem blockSearch_zero (n : ℕ) (fs : ℝ) (hm : ℕ) (enf : ℝ) (st : SearchSt)
    (h : blockSearch (List.replicate n 0) fs hm enf = some st) :
    st.bestF = enf ∧ st.bestOut = List.replicate n 0 := by
  unfold blockSearch at h
  cases hi : initSearchSt (List.replicate n 0) fs hm enf with
  | none =>
    rw [hi] at h
    simp at h
  | some st0 =>
    rw [hi] at h
    simp only [Option.bind_eq_bind, Option.some_bind] at h
    have hst0 : st0 = { f0 := enf, bestF := enf, bestOut := List.replicate n 0,
                        bestE := 0, trace := [] } := by
      unfold initSearchSt at hi
      cases hse : singleEstimate (List.replicate n 0) enf fs hm with
      | none =>
        rw [hse] at hi
        simp at hi
      | some est =>
        have hest := singleEstimate_zero_out n enf fs hm est hse
        rw [hse] at hi
        subst hest
        simp only [Option.map_some', Option.some.injEq] at hi
        rw [← hi]
        simp [sub_replicate_replicate, npDot_replicate_zero]
    rw [show searchDeltas = [0.1, 0.01] from rfl, List.foldlM_cons] at h
    cases hd1 : deltaStep (List.replicate n 0) fs hm st0 0.1 with
    | none =>
      rw [hd1] at h
      simp at h
    | some st1 =>
      rw [hd1] at h
      simp only [Option.bind_eq_bind, Option.some_bind, List.foldlM_cons,
        List.foldlM_nil] at h
      obtain ⟨ha1, ha2, ha3, _⟩ :=
        deltaStep_zero_inv n fs 0.1 hm st0 st1 (by rw [hst0]) hd1
      cases hd2 : deltaStep (List.replicate n 0) fs hm st1 0.01 with
      | none =>
        rw [hd2] at h
        simp at h
      | some st2 =>
        rw [hd2] at h
        simp only [Option.bind_eq_bind, Option.some_bind, Option.pure_def,
          Option.some.injEq] at h
        obtain ⟨hb1, hb2, _, _⟩ := deltaStep_zero_inv n fs 0.01 hm st1 st2 ha3 hd2
        subst h
        constructor
        · rw [hb1, ha1, hst0]
        · rw [hb2, ha2, hst0]

/-! ## C9: the dehummer on an all-zero signal -/

theorem mkWindow_one : mkWindow 1 = none := by
  have h1 : npHamming 1 = [1] := by
    unfold npHamming
    rw [if_pos rfl]
  simp [mkWindow, h1, npBroadcastAdd, npInplaceDiv, npInplaceAssign]

theorem mkWindow_odd (blklen : ℕ) (hodd : blklen % 2 = 1) : mkWindow blklen = none := by
  obtain ⟨h, rfl⟩ : ∃ h, blklen = 2 * h + 1 := ⟨blklen / 2, by omega⟩
  rcases Nat.lt_or_ge h 2 with hsmall | hbig
  · interval_cases h
    · exact mkWindow_one
    · exact mkWindow_three
  · have hl : (npHamming (2 * h + 1)).length = 2 * h + 1 := npHamming_length _
    have hdiv : (2 * h + 1) / 2 = h := by omega
    have hwa : ((npHamming (2 * h + 1)).take h).length = h := by
      rw [List.length_take, hl]
      omega
    have hwb : ((npHamming (2 * h + 1)).drop h).length = h + 1 := by
      rw [List.length_drop, hl]
      omega
    have hadd : npBroadcastAdd ((npHamming (2 * h + 1)).take h)
        ((npHamming (2 * h + 1)).drop h) = none := by
      unfold npBroadcastAdd
      rw [if_neg (by rw [hwa, hwb]; omega), if_neg (by rw [hwa]; omega),
          if_neg (by rw [hwb]; omega)]
    simp only [mkWindow, hdiv, hadd, Option.bind_eq_bind, Option.none_bind]

theorem mkWindow_even_of_some (blklen : ℕ) (w : List ℝ)
    (hw : mkWindow blklen = some w) : blklen % 2 = 0 := by
  by_contra hodd
  rw [mkWindow_odd blklen (by omega)] at hw
  exact Option.noConfusion hw

theorem dehumBlock_zero (tmax : ℕ) (fs enf : ℝ) (hm : ℕ) (w : List ℝ)
    (blklen h : ℕ) (st st' : DehumSt) (tmid : ℕ)
    (hb : dehumBlock (List.replicate tmax 0) fs enf hm w blklen h st tmid = some st') :
    st'.result = st.result ∧ st'.freq = st.freq.set st.kf enf ∧ st'.kf = st.kf + 1 := by
  simp only [dehumBlock, List.length_replicate, List.drop_replicate,
    List.take_replicate, Option.bind_eq_bind] at hb
  rw [Option.bind_eq_some] at hb
  obtain ⟨sr, hbs, hg⟩ := hb
  obtain ⟨hbf, hbo⟩ := blockSearch_zero _ fs hm enf sr hbs
  simp only [Option.pure_def, Option.some.injEq] at hg
  rw [← hg]
  refine ⟨?_, ?_, rfl⟩
  · show listAddInto st.result (tstartOf h tmid).toNat
      (List.zipWith (· * ·) sr.bestOut _) = st.result
    rw [hbo]
    exact listAddInto_zero _ _ _ (zip_mul_replicate_zero _ _)
  · show st.freq.set st.kf sr.bestF = st.freq.set st.kf enf
    rw [hbf]

theorem dehumFold_zero (tmax : ℕ) (fs enf : ℝ) (hm : ℕ) (w : List ℝ)
    (blklen h F : ℕ) (l : List ℕ) (st st2 : DehumSt)
    (hfold : l.foldlM (dehumBlock (List.replicate tmax 0) fs enf hm w blklen h) st =
      some st2)
    (hlen : st.freq.length = F)
    (hprev : ∀ j < st.kf, st.freq.getD j 0 = enf)
    (hbound : st.kf + l.length ≤ F) :
    st2.result = st.result ∧ st2.freq.length = F ∧ st2.kf = st.kf + l.length ∧
      (∀ j < st2.kf, st2.freq.getD j 0 = enf) := by
  induction l generalizing st with
  | nil =>
    obtain rfl : st = st2 := by simpa using hfold
    exact ⟨rfl, hlen, by simp, hprev⟩
  | cons tmid rest ih =>
    rw [List.foldlM_cons] at hfold
    cases hb : dehumBlock (List.replicate tmax 0) fs enf hm w blklen h st tmid with
    | none =>
      rw [hb] at hfold
      simp at hfold
    | some st' =>
      rw [hb] at hfold
      simp only [Option.bind_eq_bind, Option.some_bind] at hfold
      obtain ⟨hres', hfrq', hkf'⟩ := dehumBlock_zero tmax fs enf hm w blklen h st st' tmid hb
      have hkflt : st.kf < F := by
        simp only [List.length_cons] at hbound
        omega
      have hlen2 : st'.freq.length = F := by
        rw [hfrq', List.length_set, hlen]
      have hprev2 : ∀ j < st'.kf, st'.freq.getD j 0 = enf := by
        intro j hj
        rw [hkf'] at hj
        rw [hfrq']
        rcases Nat.lt_or_ge j st.kf with hlt | hge
        · rw [getD_set_ne _ _ _ _ (by omega)]
          exact hprev j hlt
        · obtain rfl : j = st.kf := by omega
          exact getD_set_self _ _ _ (by rw [hlen]; exact hkflt)
      have hbound2 : st'.kf + rest.length ≤ F := by
        rw [hkf']
        simp only [List.length_cons] at hbound
        omega
      obtain ⟨r1, r2, r3, r4⟩ := ih st' hfold hlen2 hprev2 hbound2
      refine ⟨by rw [r1, hres'], r2, ?_, r4⟩
      rw [r3, hkf']
      simp only [List.length_cons]
      omega

/-- C9 (amended): whenever every per-block regression solve succeeds (the
call returns rather than raising a `LinAlgError`), `dehummer` applied to an
all-zero input returns an all-zero output and every frequency-track entry
that was written equals the nominal frequency `enf` (ties in residual
energy never displace the initial candidate, because only strictly smaller
energy replaces the best). -/
theorem c9_zero_signal_zero_output (tmax : ℕ) (fs enf : ℝ) (hmaxIn : ℤ)
    (blklen : ℕ) (res freq : List ℝ)
    (hne : clampedHmax fs enf hmaxIn ≠ 0)
    (h : dehummer (List.replicate tmax 0) fs enf hmaxIn blklen = some (res, freq)) :
    res = List.replicate tmax 0 ∧
      ∀ j < nblocksOf tmax (blklen / 2), freq.getD j 0 = enf := by
  simp only [dehummer] at h
  cases hw : mkWindow blklen with
  | none =>
    rw [hw] at h
    simp at h
  | some w =>
    rw [hw] at h
    simp only [Option.bind_eq_bind, Option.some_bind] at h
    rw [if_neg hne] at h
    by_cases hh2 : blklen / 2 = 0
    · rw [if_pos hh2] at h
      simp at h
    · rw [if_neg hh2] at h
      simp only [List.length_replicate] at h
      have heven : blklen % 2 = 0 := mkWindow_even_of_some blklen w hw
      have hble : 2 ≤ blklen := by omega
      have hbound := nblocksOf_le_freqLenOf tmax blklen heven hble
      rw [Option.bind_eq_some] at h
      obtain ⟨stN, hfold, hout⟩ := h
      simp only [Option.pure_def, Option.some.injEq, Prod.mk.injEq] at hout
      obtain ⟨hr, hf⟩ := hout
      obtain ⟨r1, r2, r3, r4⟩ := dehumFold_zero tmax fs enf
        (clampedHmax fs enf hmaxIn).toNat w blklen (blklen / 2)
        (freqLenOf tmax blklen) (tmidList tmax (blklen / 2))
        { result := List.replicate tmax 0,
          freq := List.replicate (freqLenOf tmax blklen) 0, kf := 0 }
        stN hfold (by simp) (by intro j hj; exact absurd hj (Nat.not_lt_zero j))
        (by simpa [tmidList] using hbound)
      constructor
      · rw [← hr, r1]
      · intro j hj
        rw [← hf]
        apply r4
        rw [r3]
        simpa [tmidList] using hj

theorem det_XX_c9_zero :
    singleEstimate (List.replicate 1 (0 : ℝ)) 2 4 1 = none := by
  simp only [singleEstimate, linSolve]
  rw [if_pos]
  · rfl
  · apply Matrix.det_eq_zero_of_column_eq_zero 1
    intro c
    rw [Matrix.mul_apply]
    apply Finset.sum_eq_zero
    intro t _
    have ht : (t : ℕ) = 0 := by
      have h1 := t.isLt
      simp only [List.length_replicate] at h1
      omega
    have hX : designX (List.replicate 1 (0 : ℝ)).length 2 4 1 t 1 = 0 := by
      unfold designX
      have hc : ¬((1 : Fin (2 * 1)) : ℕ) < 1 := by decide
      rw [if_neg hc, if_neg hc, ht]
      norm_num [Real.cos_pi_div_two]
    rw [Matrix.transpose_apply, hX, mul_zero]

/-- C9 counterexample: on the one-sample all-zero signal with `blklen = 2`,
`fs = 4`, `enf = 2` (clamped harmonic count 1), the first block has a single
sample, its Gram matrix `X^T X` is exactly singular, and `dehummer` raises
`LinAlgError` instead of returning the all-zero signal. -/
theorem c9_short_block_counterexample :
    clampedHmax 4 2 1 ≠ 0 ∧ dehummer (List.replicate 1 0) 4 2 1 2 = none := by
  have hclamp : clampedHmax 4 2 1 = 1 := by
    unfold clampedHmax pyInt
    rw [if_neg (by norm_num)]
    rw [show (0.5 : ℝ) * 4 / 2 = 1 from by norm_num]
    rw [Int.floor_one]
    rfl
  refine ⟨by rw [hclamp]; norm_num, ?_⟩
  have hbs : blockSearch (List.replicate 1 0) 4 1 2 = none := by
    unfold blockSearch initSearchSt
    rw [det_XX_c9_zero]
    rfl
  obtain ⟨w, hw⟩ : ∃ w, mkWindow 2 = some w := ⟨_, mkWindow_two_mul 1⟩
  have hblock : ∀ st : DehumSt,
      dehumBlock (List.replicate 1 0) 4 2 1 w 2 1 st 0 = none := by
    intro st
    simp only [dehumBlock, List.length_replicate, List.drop_replicate,
      List.take_replicate, tstartOf, tstopOf, wstartOf, wstopOf]
    norm_num
    intro a ha
    rw [show ([(0 : ℝ)] : List ℝ) = List.replicate 1 0 from rfl, hbs] at ha
    exact Option.noConfusion ha
  simp only [dehummer, hw, hclamp, Option.bind_eq_bind, Option.some_bind]
  rw [if_neg (by norm_num)]
  rw [if_neg (by norm_num : ¬(2 / 2 : ℕ) = 0)]
  simp only [List.length_replicate]
  rw [show tmidList 1 (2 / 2) = [0, 1] from by decide]
  rw [List.foldlM_cons]
  rw [show (2 / 2 : ℕ) = 1 from rfl, show Int.toNat 1 = 1 from rfl]
  rw [hblock]
  rfl

theorem clampedHmax_c9w : clampedHmax 4 50 (-1) = -1 := by
  unfold clampedHmax pyInt
  rw [if_neg (by norm_num)]
  rw [show (0.5 : ℝ) * 4 / 50 = 0.04 from by norm_num]
  rw [Int.floor_eq_zero_iff.mpr (by constructor <;> norm_num)]
  rfl

/-- C9 witness: a completed `dehummer` run on an all-zero two-sample signal
(negative requested harmonic count, so the clamp is nonzero and every
regression solve trivially succeeds), instantiating the amended statement. -/
theorem c9_zero_signal_zero_output_witness :
    clampedHmax 4 50 (-1) ≠ 0 ∧
      (List.replicate 2 (0 : ℝ) = List.replicate 2 0 ∧
        ∀ j < nblocksOf 2 (4 / 2), ([(50 : ℝ), 50, 0]).getD j 0 = 50) := by
  have hne : clampedHmax 4 50 (-1) ≠ 0 := by
    rw [clampedHmax_c9w]
    norm_num
  obtain ⟨w, hw⟩ : ∃ w, mkWindow 4 = some w := ⟨_, mkWindow_two_mul 2⟩
  have hblock : ∀ (st : DehumSt) (tmid : ℕ),
      dehumBlock (List.replicate 2 0) 4 50 0 w 4 2 st tmid =
        some { result := st.result, freq := st.freq.set st.kf 50, kf := st.kf + 1 } := by
    intro st tmid
    simp only [dehumBlock, List.length_replicate, List.drop_replicate,
      List.take_replicate]
    rw [blockSearch_hm_zero]
    simp only [Option.bind_eq_bind, Option.some_bind, Option.pure_def,
      Option.some.injEq]
    rw [listAddInto_zero _ _ _ (zip_mul_replicate_zero _ _)]
  have hd : dehummer (List.replicate 2 0) 4 50 (-1) 4 =
      some (List.replicate 2 0, [50, 50, 0]) := by
    simp only [dehummer, hw, clampedHmax_c9w, Option.bind_eq_bind, Option.some_bind]
    rw [if_neg (by norm_num : ¬(-1 : ℤ) = 0)]
    rw [if_neg (by norm_num : ¬(4 / 2 : ℕ) = 0)]
    simp only [List.length_replicate]
    rw [show tmidList 2 (4 / 2) = [0, 2] from by decide]
    rw [show (4 / 2 : ℕ) = 2 from rfl, show Int.toNat (-1) = 0 from rfl]
    rw [List.foldlM_cons, hblock]
    simp only [Option.bind_eq_bind, Option.some_bind]
    rw [List.foldlM_cons, hblock]
    simp only [Option.bind_eq_bind, Option.some_bind, List.foldlM_nil,
      Option.pure_def, Option.some.injEq]
    norm_num [freqLenOf]
    rw [show List.replicate 3 (0 : ℝ) = [0, 0, 0] from rfl]
    rfl
  exact ⟨hne, c9_zero_signal_zero_output 2 4 50 (-1) 4
    (List.replicate 2 0) [50, 50, 0] hne hd⟩

/-! ## C4: the final gain rescaling of `whiten` -/

theorem npMean_map_mul (xs : List ℝ) (c : ℝ) :
    npMean (xs.map fun x => x * c) = npMean xs * c := by
  unfold npMean
  rw [List.length_map]
  have hs : (xs.map fun x => x * c).sum = xs.sum * c := by
    induction xs with
    | nil => simp
    | cons a t ih => simp only [List.map_cons, List.sum_cons, ih]; ring
  rw [hs]
  ring

theorem npStd_nonneg (xs : List ℝ) : 0 ≤ npStd xs := Real.sqrt_nonneg _

theorem npMean_sq_nonneg (xs : List ℝ) (m : ℝ) :
    0 ≤ npMean (xs.map fun x => (x - m) ^ 2) := by
  unfold npMean
  apply div_nonneg
  · apply List.sum_nonneg
    intro y hy
    obtain ⟨x, _, rfl⟩ := List.mem_map.mp hy
    positivity
  · positivity

theorem npStd_map_mul (xs : List ℝ) (c : ℝ) :
    npStd (xs.map fun x => x * c) = |c| * npStd xs := by
  unfold npStd
  rw [npMean_map_mul]
  have h1 : ((xs.map fun x => x * c).map fun x => (x - npMean xs * c) ^ 2) =
      (xs.map fun x => (x - npMean xs) ^ 2).map fun y => y * c ^ 2 := by
    rw [List.map_map, List.map_map]
    apply List.map_congr_left
    intro a _
    show (a * c - npMean xs * c) ^ 2 = (a - npMean xs) ^ 2 * c ^ 2
    ring
  rw [h1, npMean_map_mul, Real.sqrt_mul (npMean_sq_nonneg xs (npMean xs)),
    Real.sqrt_sq_eq_abs]
  ring

/-- C4 (amended): whenever the filtering pipeline succeeds and the filtered
signal has nonzero standard deviation, `whiten` returns the filtered signal
rescaled by `np.std(sig) / np.std(sigout)`, and the returned signal's
standard deviation equals the input's exactly — in both zero-phase and
plain modes, with no hypothesis on the input's own standard deviation.
When the filtered signal is constant (zero standard deviation) the gain is
a division by zero and the returned standard deviation does not match. -/
theorem c4_rescale_restores_std (sig : List ℝ) (fs : ℝ) (ordar : ℕ) (enf tol : ℝ)
    (zeroPhase : Bool) (psd0 out : List ℝ)
    (hf : whitenFiltered sig fs ordar enf tol zeroPhase psd0 = some out)
    (hout : npStd out ≠ 0) :
    whiten sig fs ordar enf tol zeroPhase psd0 =
      some (out.map fun x => x * (npStd sig / npStd out)) ∧
    npStd (out.map fun x => x * (npStd sig / npStd out)) = npStd sig := by
  constructor
  · unfold whiten
    rw [hf, Option.map_some']
  · rw [npStd_map_mul,
      abs_of_nonneg (div_nonneg (npStd_nonneg sig) (npStd_nonneg out)),
      div_mul_cancel₀ (npStd sig) hout]

theorem numHarmonics_le_one (fs enf tol : ℝ) (h0 : 0 < enf - tol)
    (h2 : fs ≤ 2 * (enf - tol)) : numHarmonics fs enf tol = 0 := by
  unfold numHarmonics
  rw [if_neg (not_le.mpr h0)]
  have hc : ⌈fs / (2 * (enf - tol))⌉ ≤ 1 := by
    apply Int.ceil_le.mpr
    push_cast
    rw [div_le_one (by positivity)]
    exact h2
  exact Int.toNat_eq_zero.mpr (by omega)

theorem notchLoop_trivial (fs enf tol : ℝ) (psd : List ℝ)
    (h : numHarmonics fs enf tol = 0) : notchLoop fs enf tol psd = some psd := by
  unfold notchLoop
  rw [h]
  rfl

theorem correl_c4 (n : ℕ) : correlOf [0, 1, 0, 1] n =
    (Real.cos (π * n / 2) + Real.cos (3 * π * n / 2)) / 4 := by
  unfold correlOf
  norm_num [Finset.sum_range_succ]
  rw [show 2 * π * (n : ℝ) / 4 = π * n / 2 from by ring,
      show 2 * π * 3 * (n : ℝ) / 4 = 3 * π * n / 2 from by ring]
  ring

theorem correl_c4_zero : correlOf [0, 1, 0, 1] 0 = 1 / 2 := by
  rw [correl_c4]
  norm_num

theorem correl_c4_one : correlOf [0, 1, 0, 1] 1 = 0 := by
  rw [correl_c4]
  norm_num
  rw [show 3 * π / 2 = 2 * π - π / 2 from by ring, cos_two_pi_sub_eq,
    Real.cos_pi_div_two]

theorem correl_c4_two : correlOf [0, 1, 0, 1] 2 = -(1 / 2) := by
  rw [correl_c4]
  norm_num
  rw [show 3 * π = π + 2 * π from by ring, Real.cos_add_two_pi, Real.cos_pi]
  norm_num

theorem mulVec_inv_eq {n : ℕ} (A : Matrix (Fin n) (Fin n) ℝ) (b v : Fin n → ℝ)
    (hdet : A.det ≠ 0) (hv : A.mulVec v = b) : A⁻¹.mulVec b = v := by
  rw [← hv, Matrix.mulVec_mulVec,
    Matrix.nonsing_inv_mul A (isUnit_iff_ne_zero.mpr hdet), Matrix.one_mulVec]

theorem ywR_c4 (i j : Fin 2) :
    ywR [0, 1, 0, 1] 2 0 i j = if i = j then 1 / 2 else 0 := by
  fin_cases i <;> fin_cases j <;>
    norm_num [ywR, correl_c4_zero, correl_c4_one]

theorem ywR_c4_det : (ywR [0, 1, 0, 1] 2 0).det = 1 / 4 := by
  rw [Matrix.det_fin_two, ywR_c4, ywR_c4, ywR_c4, ywR_c4]
  norm_num

theorem ywAR_c4 : ywAR [0, 1, 0, 1] 2 0 = ![0, 1] := by
  unfold ywAR
  apply mulVec_inv_eq
  · rw [ywR_c4_det]
    norm_num
  · funext i
    fin_cases i <;>
      simp [Matrix.mulVec, Matrix.dotProduct, Fin.sum_univ_two, ywR_c4, ywr,
        correl_c4_one, correl_c4_two]

theorem linSolve_c4 : linSolve (ywR [0, 1, 0, 1] 2 0) (ywr [0, 1, 0, 1] 2 0) =
    some ![0, 1] := by
  unfold linSolve
  rw [if_neg (by rw [ywR_c4_det]; norm_num)]
  rw [show (ywR [0, 1, 0, 1] 2 0)⁻¹.mulVec (ywr [0, 1, 0, 1] 2 0) =
      ywAR [0, 1, 0, 1] 2 0 from rfl, ywAR_c4]

theorem convSame_c4 : convSame [1, 0, -1] [1, 0, 1] = [0, 0, 0] := by
  unfold convSame fullConv
  norm_num [List.ofFn_succ, Finset.sum_range_succ]

theorem whitenCore_c4 : whitenCore [1, 0, -1] 2 false [0, 1, 0, 1] = some [0, 0, 0] := by
  have herr : (estimate { ordar := 2, ordma := 0, psd := [0, 1, 0, 1],
                          AR_ := none, MA := none }).error = none := by
    simp [estimate, linSolve_c4]
  have har : (estimate { ordar := 2, ordma := 0, psd := [0, 1, 0, 1],
                         AR_ := none, MA := none }).state.AR_ = some [0, 1] := by
    simp [estimate, linSolve_c4, List.ofFn_succ]
  unfold whitenCore
  simp only [Bool.false_eq_true, if_false]
  rw [herr, har]
  show some (convSame [1, 0, -1] [1, 0, 1]) = some [0, 0, 0]
  rw [convSame_c4]

theorem c4_npStd_input : npStd [1, 0, -1] = Real.sqrt (2 / 3) := by
  unfold npStd npMean
  norm_num

theorem c4_npStd_zero : npStd ([0, 0, 0] : List ℝ) = 0 := by
  unfold npStd npMean
  norm_num

/-- C4 counterexample: the plain-mode call
`whiten([1, 0, -1], fs=4, ordar=2, enf=50, d_enf=1)` on the periodogram
`[0, 1, 0, 1]` filters the signal to exactly `[0, 0, 0]` (the fitted AR
polynomial `1 + z^-2` annihilates the input), so the rescale divides by
`np.std([0,0,0]) = 0` and the returned signal's standard deviation is 0,
not the input's nonzero `sqrt(2/3)` — refuting the claim that the output
standard deviation always matches a nonzero input standard deviation. -/
theorem c4_zero_residual_counterexample :
    npStd [1, 0, -1] ≠ 0 ∧
    whiten [1, 0, -1] 4 2 50 1 false [0, 1, 0, 1] = some [0, 0, 0] ∧
    npStd ([0, 0, 0] : List ℝ) ≠ npStd [1, 0, -1] := by
  have hin : npStd [1, 0, -1] ≠ 0 := by
    rw [c4_npStd_input]
    exact Real.sqrt_ne_zero'.mpr (by norm_num)
  have hwf : whitenFiltered [1, 0, -1] 4 2 50 1 false [0, 1, 0, 1] =
      some [0, 0, 0] := by
    unfold whitenFiltered
    rw [notchLoop_trivial 4 50 1 _ (numHarmonics_le_one 4 50 1 (by norm_num)
      (by norm_num))]
    exact whitenCore_c4
  refine ⟨hin, ?_, ?_⟩
  · unfold whiten
    rw [hwf, Option.map_some']
    norm_num
  · rw [c4_npStd_zero]
    exact fun h => hin h.symm

theorem correl_c4w (n : ℕ) : correlOf [4, 0] n = 2 := by
  unfold correlOf
  norm_num [Finset.sum_range_succ]

theorem linSolve_c4w : linSolve (ywR [4, 0] 1 0) (ywr [4, 0] 1 0) =
    some fun _ => -1 := by
  have hR : ∀ i j : Fin 1, ywR [4, 0] 1 0 i j = 2 := by
    intro i j
    fin_cases i
    fin_cases j
    norm_num [ywR, correl_c4w]
  have hAR : ywAR [4, 0] 1 0 = fun _ => -1 := by
    unfold ywAR
    rw [mulVec_inv_fin_one]
    funext i
    rw [hR 0 0]
    norm_num [ywr, correl_c4w]
  unfold linSolve
  rw [if_neg (by rw [Matrix.det_fin_one, hR]; norm_num)]
  rw [show (ywR [4, 0] 1 0)⁻¹.mulVec (ywr [4, 0] 1 0) = ywAR [4, 0] 1 0 from rfl, hAR]

theorem convSame_c4w : convSame [1, -1] [1, -1] = [1, -2] := by
  unfold convSame fullConv
  norm_num [List.ofFn_succ, Finset.sum_range_succ]

theorem whitenFiltered_c4w : whitenFiltered [1, -1] 2 1 50 1 false [4, 0] =
    some [1, -2] := by
  have herr : (estimate { ordar := 1, ordma := 0, psd := [4, 0],
                          AR_ := none, MA := none }).error = none := by
    simp [estimate, linSolve_c4w]
  have har : (estimate { ordar := 1, ordma := 0, psd := [4, 0],
                         AR_ := none, MA := none }).state.AR_ = some [-1] := by
    simp [estimate, linSolve_c4w, List.ofFn_succ]
  unfold whitenFiltered
  rw [notchLoop_trivial 2 50 1 _ (numHarmonics_le_one 2 50 1 (by norm_num)
    (by norm_num))]
  show whitenCore [1, -1] 1 false [4, 0] = some [1, -2]
  unfold whitenCore
  simp only [Bool.false_eq_true, if_false]
  rw [herr, har]
  show some (convSame [1, -1] [1, -1]) = some [1, -2]
  rw [convSame_c4w]

theorem c4_npStd_out : npStd ([1, -2] : List ℝ) = 3 / 2 := by
  unfold npStd npMean
  norm_num
  rw [show (9 : ℝ) = 3 ^ 2 from by norm_num, show (4 : ℝ) = 2 ^ 2 from by norm_num,
    Real.sqrt_sq (by norm_num : (0 : ℝ) ≤ 3), Real.sqrt_sq (by norm_num : (0 : ℝ) ≤ 2)]

/-- C4 witness: a plain-mode run in which the pipeline succeeds with a
nonconstant filtered signal (`[1, -2]`, standard deviation `3/2`), so the
amended statement applies and the rescaled output's standard deviation
equals the input's. -/
theorem c4_rescale_restores_std_witness :
    whitenFiltered [1, -1] 2 1 50 1 false [4, 0] = some [1, -2] ∧
    npStd ([1, -2] : List ℝ) ≠ 0 ∧
    (whiten [1, -1] 2 1 50 1 false [4, 0] =
        some (([1, -2] : List ℝ).map fun x => x * (npStd [1, -1] / npStd [1, -2])) ∧
      npStd (([1, -2] : List ℝ).map fun x => x * (npStd [1, -1] / npStd [1, -2])) =
        npStd [1, -1]) := by
  have hs : npStd ([1, -2] : List ℝ) ≠ 0 := by
    rw [c4_npStd_out]
    norm_num
  exact ⟨whitenFiltered_c4w, hs,
    c4_rescale_restores_std [1, -1] 2 1 50 1 false [4, 0] [1, -2]
      whitenFiltered_c4w hs⟩

/-! ## C6: the harmonic notch of `whiten` -/

theorem interpolOf_length (Amin Amax : ℝ) (m : ℕ) :
    (interpolOf Amin Amax m).length = m := by
  unfold interpolOf
  exact List.length_ofFn _

theorem range_map_getD (N : ℕ) (g : ℕ → ℝ) (t : ℕ) (ht : t < N) :
    ((List.range N).map g).getD t 0 = g t := by
  rw [List.getD_eq_getElem _ _ (by simp [ht])]
  simp

theorem pySliceAssign_eq (xs : List ℝ) (i j : ℤ) (vals : List ℝ)
    (hlen : vals.length = pyIdx xs.length j - pyIdx xs.length i) :
    pySliceAssign xs i j vals =
      some ((List.range xs.length).map fun t =>
        if pyIdx xs.length i ≤ t ∧ t < pyIdx xs.length j then
          vals.getD (t - pyIdx xs.length i) 0
        else xs.getD t 0) := by
  unfold pySliceAssign
  rw [if_pos hlen]

theorem pyIdx_natCast (len m : ℕ) (h : m ≤ len) : pyIdx len (m : ℤ) = m := by
  unfold pyIdx
  rw [if_neg (by omega), Int.toNat_natCast]
  exact min_eq_right h

theorem pyIdx_neg_natCast (len m : ℕ) (h1 : 1 ≤ m) (h2 : m ≤ len) :
    pyIdx len (-(m : ℤ)) = len - m := by
  unfold pyIdx
  rw [if_pos (by omega)]
  omega

theorem notchStep_interpolates (fs enf tol : ℝ) (k : ℕ) (psd : List ℝ) (A B : ℕ)
    (hA : (A : ℤ) = kminOf psd.length fs ((k : ℝ) * (enf - tol)))
    (hB : (B : ℤ) = kmaxOf psd.length fs ((k : ℝ) * (enf + tol)))
    (h1 : 1 ≤ A) (hab : A ≤ B) :
    ∃ p', notchStep fs enf tol k psd = some p' ∧
      p'.length = psd.length ∧
      (∀ t, A ≤ t → t < B →
        p'.getD t 0 =
          (interpolOf (psd.getD A 0) (psd.getD B 0) (B - A)).getD (t - A) 0) ∧
      (∀ t, psd.length - B ≤ t → t < psd.length - A →
        p'.getD t 0 =
          (interpolOf (psd.getD A 0) (psd.getD B 0) (B - A)).reverse.getD
            (t - (psd.length - B)) 0) ∧
      (∀ t, t < psd.length → ¬(A ≤ t ∧ t < B) →
        ¬(psd.length - B ≤ t ∧ t < psd.length - A) →
        p'.getD t 0 = psd.getD t 0) := by
  have hb2 : (B : ℤ) ≤ ((psd.length / 2 : ℕ) : ℤ) := by
    rw [hB]
    exact min_le_left _ _
  have hBhalf : B ≤ psd.length / 2 := by exact_mod_cast hb2
  have hBN : 2 * B ≤ psd.length := by omega
  have hAN : A ≤ psd.length := by omega
  have hBN' : B ≤ psd.length := by omega
  simp only [notchStep]
  rw [← hA, ← hB]
  rw [if_neg (by omega : ¬((B : ℤ) - (A : ℤ) < 0))]
  simp only [Int.toNat_natCast]
  rw [show ((B : ℤ) - (A : ℤ)).toNat = B - A from by omega]
  rw [pySliceAssign_eq psd _ _ _ (by
    rw [interpolOf_length, pyIdx_natCast _ _ hBN', pyIdx_natCast _ _ hAN])]
  simp only [Option.bind_eq_bind, Option.some_bind]
  rw [pySliceAssign_eq _ _ _ _ (by
    rw [List.length_reverse, interpolOf_length, List.length_map, List.length_range,
      pyIdx_neg_natCast _ _ (by omega) hAN, pyIdx_neg_natCast _ _ (by omega) hBN']
    omega)]
  rw [List.length_map, List.length_range,
    pyIdx_natCast _ _ hAN, pyIdx_natCast _ _ hBN',
    pyIdx_neg_natCast _ _ (by omega) hBN', pyIdx_neg_natCast _ _ (by omega) hAN]
  refine ⟨_, rfl, by simp, ?_, ?_, ?_⟩
  · intro t h1t h2t
    rw [range_map_getD _ _ _ (by omega)]
    rw [if_neg (by omega)]
    rw [range_map_getD _ _ _ (by omega)]
    rw [if_pos ⟨h1t, h2t⟩]
  · intro t h1t h2t
    rw [range_map_getD _ _ _ (by omega)]
    rw [if_pos ⟨h1t, h2t⟩]
  · intro t htN hpos hneg
    rw [range_map_getD _ _ _ htN, if_neg hneg, range_map_getD _ _ _ htN, if_neg hpos]

/-- C6 (amended): with positive sampling frequency and `enf - tol > 0`,
(a) the notch loop processes harmonic `k ≥ 1` exactly when
`k * (enf - tol) < fs / 2`; (b) whenever the positive-frequency bin range
has `kmin ≥ 1` (and `kmin ≤ kmax`), the notch step succeeds: it overwrites
`psd[kmin:kmax]` with the linear interpolation between the edge values
`psd[kmin]` and `psd[kmax]`, overwrites the mirrored bins
`psd[-kmax:-kmin]` with the reverse of that same interpolation, and leaves
every other bin unchanged; when `kmin = 0` the mirrored slice is empty and
the assignment raises a `ValueError` instead (see the counterexample);
(c) when `enf - tol ≥ fs / 2` the loop body never executes and `whiten`
degenerates to plain whitening of the unmodified PSD. -/
theorem c6_notch_interpolation (fs enf tol : ℝ) (psd : List ℝ) (k : ℕ)
    (hfs : 0 < fs) (htol : 0 < enf - tol) (hk1 : 1 ≤ k) :
    (k ∈ List.range' 1 (numHarmonics fs enf tol) ↔
      (k : ℝ) * (enf - tol) < fs / 2) ∧
    (∀ A B : ℕ, (A : ℤ) = kminOf psd.length fs ((k : ℝ) * (enf - tol)) →
      (B : ℤ) = kmaxOf psd.length fs ((k : ℝ) * (enf + tol)) →
      1 ≤ A → A ≤ B →
      ∃ p', notchStep fs enf tol k psd = some p' ∧
        p'.length = psd.length ∧
        (∀ t, A ≤ t → t < B →
          p'.getD t 0 =
            (interpolOf (psd.getD A 0) (psd.getD B 0) (B - A)).getD (t - A) 0) ∧
        (∀ t, psd.length - B ≤ t → t < psd.length - A →
          p'.getD t 0 =
            (interpolOf (psd.getD A 0) (psd.getD B 0) (B - A)).reverse.getD
              (t - (psd.length - B)) 0) ∧
        (∀ t, t < psd.length → ¬(A ≤ t ∧ t < B) →
          ¬(psd.length - B ≤ t ∧ t < psd.length - A) →
          p'.getD t 0 = psd.getD t 0)) ∧
    (fs / 2 ≤ enf - tol → ∀ sig ordar zeroPhase,
      whiten sig fs ordar enf tol zeroPhase psd =
        whitenPlain sig ordar zeroPhase psd) := by
  refine ⟨?_, ?_, ?_⟩
  · have hc : (0 : ℝ) < fs / (2 * (enf - tol)) := by positivity
    have hz : 1 ≤ ⌈fs / (2 * (enf - tol))⌉ := Int.ceil_pos.mpr hc
    have hnum : numHarmonics fs enf tol = (⌈fs / (2 * (enf - tol))⌉ - 1).toNat := by
      unfold numHarmonics
      rw [if_neg (not_le.mpr htol)]
    have hiff : k ≤ numHarmonics fs enf tol ↔ (k : ℝ) < fs / (2 * (enf - tol)) := by
      rw [hnum, Int.le_toNat (by omega)]
      constructor
      · intro h
        have h2 : (k : ℤ) + 1 ≤ ⌈fs / (2 * (enf - tol))⌉ := by omega
        have h3 := Int.add_one_le_ceil_iff.mp h2
        push_cast at h3
        exact h3
      · intro h
        have h2 : (k : ℤ) + 1 ≤ ⌈fs / (2 * (enf - tol))⌉ := by
          apply Int.add_one_le_ceil_iff.mpr
          push_cast
          exact h
        omega
    have hiff2 : (k : ℝ) < fs / (2 * (enf - tol)) ↔
        (k : ℝ) * (enf - tol) < fs / 2 := by
      rw [lt_div_iff₀ (by positivity), lt_div_iff₀ (by norm_num : (0 : ℝ) < 2)]
      constructor <;> intro h <;> nlinarith
    rw [List.mem_range'_1]
    constructor
    · intro h
      exact hiff2.mp (hiff.mp (by omega))
    · intro h
      have := hiff.mpr (hiff2.mpr h)
      omega
  · intro A B hA hB h1 hab
    exact notchStep_interpolates fs enf tol k psd A B hA hB h1 hab
  · intro hdeg sig ordar zeroPhase
    unfold whiten whitenPlain whitenFiltered
    rw [notchLoop_trivial fs enf tol psd
      (numHarmonics_le_one fs enf tol htol (by linarith))]
    rfl

theorem kminOf_c6 : kminOf 16 1000 ((1 : ℝ) * (50 - 40)) = 0 := by
  unfold kminOf pyInt
  rw [if_neg (by norm_num)]
  rw [show ((16 : ℕ) : ℝ) * ((1 : ℝ) * (50 - 40)) / 1000 = 0.16 from by norm_num]
  rw [Int.floor_eq_zero_iff.mpr (by constructor <;> norm_num)]
  rfl

theorem kmaxOf_c6 : kmaxOf 16 1000 ((1 : ℝ) * (50 + 40)) = 2 := by
  unfold kmaxOf pyInt
  rw [if_neg (by norm_num)]
  rw [show ((16 : ℕ) : ℝ) * ((1 : ℝ) * (50 + 40)) / 1000 = 1.44 from by norm_num]
  rw [show ⌊(1.44 : ℝ)⌋ = 1 from Int.floor_eq_iff.mpr (by constructor <;> norm_num)]
  rfl

/-- C6 counterexample: for `fs = 1000`, `enf = 50`, `tol = 40` and a PSD of
16 bins, the first harmonic satisfies `k * (enf - tol) < fs / 2` (so the
claim asserts its mirrored bins are overwritten), but `kmin = 0`, the
mirrored slice `psd[-kmax:-0]` is empty, and assigning the 2-element
reversed interpolation to it raises a broadcast `ValueError`: the notch
step fails instead of writing the mirrored bins. -/
theorem c6_zero_kmin_raises_counterexample :
    (1 : ℝ) * (50 - 40) < 1000 / 2 ∧
    kminOf 16 1000 ((1 : ℝ) * (50 - 40)) = 0 ∧
    notchStep 1000 50 40 1 (List.replicate 16 (1 : ℝ)) = none := by
  refine ⟨by norm_num, kminOf_c6, ?_⟩
  simp only [notchStep, List.length_replicate, Nat.cast_one]
  rw [kminOf_c6, kmaxOf_c6]
  rw [if_neg (by norm_num)]
  rw [show ((2 : ℤ) - 0).toNat = 2 from by decide]
  rw [pySliceAssign_eq (List.replicate 16 (1 : ℝ)) _ _ _ (by
    rw [interpolOf_length, List.length_replicate,
      show pyIdx 16 (2 : ℤ) = 2 from by decide,
      show pyIdx 16 (0 : ℤ) = 0 from by decide])]
  simp only [Option.bind_eq_bind, Option.some_bind]
  unfold pySliceAssign
  rw [List.length_map, List.length_range, List.length_replicate]
  rw [show pyIdx 16 (-(2 : ℤ)) = 14 from by decide,
    show pyIdx 16 (-(0 : ℤ)) = 0 from by decide]
  rw [List.length_reverse, interpolOf_length]
  rw [if_neg (by norm_num), if_neg (by norm_num)]

theorem kminOf_c6w : kminOf 64 1000 (((1 : ℕ) : ℝ) * (50 - 1)) = 3 := by
  unfold kminOf pyInt
  rw [if_neg (by norm_num)]
  rw [show ((64 : ℕ) : ℝ) * (((1 : ℕ) : ℝ) * (50 - 1)) / 1000 = 3.136 from by norm_num]
  rw [show ⌊(3.136 : ℝ)⌋ = 3 from Int.floor_eq_iff.mpr (by constructor <;> norm_num)]
  rfl

theorem kmaxOf_c6w : kmaxOf 64 1000 (((1 : ℕ) : ℝ) * (50 + 1)) = 4 := by
  unfold kmaxOf pyInt
  rw [if_neg (by norm_num)]
  rw [show ((64 : ℕ) : ℝ) * (((1 : ℕ) : ℝ) * (50 + 1)) / 1000 = 3.264 from by norm_num]
  rw [show ⌊(3.264 : ℝ)⌋ = 3 from Int.floor_eq_iff.mpr (by constructor <;> norm_num)]
  rfl

/-- C6 witness: the amended statement at `fs = 1000`, `enf = 50`, `tol = 1`,
`k = 1` on a 64-bin PSD, where `kmin = 3` and `kmax = 4`, so the
interpolation branch of the statement is applicable with `kmin ≥ 1`. -/
theorem c6_notch_interpolation_witness :
    kminOf (List.replicate 64 (1 : ℝ)).length 1000 (((1 : ℕ) : ℝ) * (50 - 1)) = 3 ∧
    kmaxOf (List.replicate 64 (1 : ℝ)).length 1000 (((1 : ℕ) : ℝ) * (50 + 1)) = 4 ∧
    ((1 ∈ List.range' 1 (numHarmonics 1000 50 1) ↔
      ((1 : ℕ) : ℝ) * (50 - 1) < 1000 / 2) ∧
    (∀ A B : ℕ,
      (A : ℤ) = kminOf (List.replicate 64 (1 : ℝ)).length 1000
        (((1 : ℕ) : ℝ) * (50 - 1)) →
      (B : ℤ) = kmaxOf (List.replicate 64 (1 : ℝ)).length 1000
        (((1 : ℕ) : ℝ) * (50 + 1)) →
      1 ≤ A → A ≤ B →
      ∃ p', notchStep 1000 50 1 1 (List.replicate 64 (1 : ℝ)) = some p' ∧
        p'.length = (List.replicate 64 (1 : ℝ)).length ∧
        (∀ t, A ≤ t → t < B →
          p'.getD t 0 =
            (interpolOf ((List.replicate 64 (1 : ℝ)).getD A 0)
              ((List.replicate 64 (1 : ℝ)).getD B 0) (B - A)).getD (t - A) 0) ∧
        (∀ t, (List.replicate 64 (1 : ℝ)).length - B ≤ t →
          t < (List.replicate 64 (1 : ℝ)).length - A →
          p'.getD t 0 =
            (interpolOf ((List.replicate 64 (1 : ℝ)).getD A 0)
              ((List.replicate 64 (1 : ℝ)).getD B 0) (B - A)).reverse.getD
              (t - ((List.replicate 64 (1 : ℝ)).length - B)) 0) ∧
        (∀ t, t < (List.replicate 64 (1 : ℝ)).length → ¬(A ≤ t ∧ t < B) →
          ¬((List.replicate 64 (1 : ℝ)).length - B ≤ t ∧
            t < (List.replicate 64 (1 : ℝ)).length - A) →
          p'.getD t 0 = (List.replicate 64 (1 : ℝ)).getD t 0)) ∧
    ((1000 : ℝ) / 2 ≤ 50 - 1 → ∀ sig ordar zeroPhase,
      whiten sig 1000 ordar 50 1 zeroPhase (List.replicate 64 (1 : ℝ)) =
        whitenPlain sig ordar zeroPhase (List.replicate 64 (1 : ℝ)))) :=
  ⟨by simp only [List.length_replicate]; exact kminOf_c6w,
   by simp only [List.length_replicate]; exact kmaxOf_c6w,
   c6_notch_interpolation 1000 50 1 (List.replicate 64 (1 : ℝ)) 1
     (by norm_num) (by norm_num) (by norm_num)⟩

end Pactools
